import Mathlib

/-!
Verification development for the inventory-management repository.

The repository contains near-duplicate C++ variants of one program.  The
richest variant (the one with duplicate-id checking, the strict
negative-stock policy and token-level file persistence) is embedded in
namespace `Baseline`; the variant built around a plain `Item` struct with
a `category` field, name-merging `addItem` and free-text `searchItem`
(file `inventory_management.cpp`) is embedded in namespace `GenericInv`.

Machine integers (`int`) are modelled as unbounded `Int` for in-memory
arithmetic (overflow of `+=` is undefined behaviour and out of scope), but
the `stoi` model does enforce the 32-bit `int` range, since `std::stoi`
throws `std::out_of_range` beyond it.  C++ `double` is modelled as `ℚ`
under the convention that a decimal literal denotes its exact rational
value; the textual codec theorems are stated on explicitly named fragments
(`Baseline.persistFaithful`, `StrUtil.stodModelled`) on which this
rendering/parsing model agrees with the C++ library functions — scientific
or hexadecimal notation, infinities and NaNs, and values outside the
finite `double` range lie outside those fragments and outside every
theorem's domain.  Console output is not part of the state, but where the
source distinguishes outcomes only through its diagnostic messages the
embedding records the distinction as separate result constructors.  File
I/O success is an oracle parameter (`ioOk`).
-/

/-- Decidable equality for `Except`, needed to evaluate load results on
concrete inputs. -/
instance {e a : Type} [DecidableEq e] [DecidableEq a] : DecidableEq (Except e a) :=
  fun x y =>
    match x, y with
    | .error e1, .error e2 => decidable_of_iff (e1 = e2) (by simp)
    | .ok v1, .ok v2 => decidable_of_iff (v1 = v2) (by simp)
    | .error _, .ok _ => isFalse (by simp)
    | .ok _, .error _ => isFalse (by simp)

namespace StrUtil

/-- Decimal digit characters, as written by C++ stream output and `std::to_string`. -/
def digitChar (d : Nat) : Char :=
  if d = 0 then '0' else if d = 1 then '1' else if d = 2 then '2' else if d = 3 then '3'
  else if d = 4 then '4' else if d = 5 then '5' else if d = 6 then '6'
  else if d = 7 then '7' else if d = 8 then '8' else '9'

/-- Numeric value of a digit character, as used by decimal parsing. -/
def digitVal (c : Char) : Nat := c.toNat - 48

/-- Little-endian decimal digits of `n`; `fuel` bounds the recursion
depth (`fuel = n` is always enough). -/
def revDigits : Nat → Nat → List Nat
  | 0, _ => []
  | fuel + 1, n => if n = 0 then [] else n % 10 :: revDigits fuel (n / 10)

/-- Big-endian decimal digit list of `n` (`[0]` for zero). -/
def natBigDigits (n : Nat) : List Nat :=
  if n = 0 then [0] else (revDigits n n).reverse

/-- Decimal rendering of a natural number, as produced by C++ stream output. -/
def natToString (n : Nat) : String := ⟨(natBigDigits n).map digitChar⟩

/-- Decimal rendering of a C++ `int`, as produced by stream output and
`std::to_string`. -/
def intToString (n : Int) : String :=
  if n < 0 then "-" ++ natToString n.natAbs else natToString n.toNat

theorem digitVal_digitChar {d : Nat} (h : d < 10) : digitVal (digitChar d) = d := by
  interval_cases d <;> decide

theorem isDigit_digitChar {d : Nat} (h : d < 10) : (digitChar d).isDigit = true := by
  interval_cases d <;> decide

/-- The C-locale `isspace` set (space, tab, newline, vertical tab, form
feed, carriage return) that `std::stoi`/`std::stod` skip before the
number. -/
def cppIsSpace (c : Char) : Bool :=
  c = ' ' || c = '\t' || c = '\n' || c = Char.ofNat 11 || c = Char.ofNat 12 || c = '\r'

theorem cppIsSpace_digitChar {d : Nat} (h : d < 10) :
    cppIsSpace (digitChar d) = false := by
  interval_cases d <;> decide

theorem digitChar_ne_newline {d : Nat} (h : d < 10) : digitChar d ≠ '\n' := by
  interval_cases d <;> decide

theorem digitChar_ne_comma {d : Nat} (h : d < 10) : digitChar d ≠ ',' := by
  interval_cases d <;> decide

theorem digitChar_ne_minus {d : Nat} (h : d < 10) : digitChar d ≠ '-' := by
  interval_cases d <;> decide

theorem digitChar_ne_plus {d : Nat} (h : d < 10) : digitChar d ≠ '+' := by
  interval_cases d <;> decide

theorem mem_revDigits_lt : ∀ (fuel n d : Nat), d ∈ revDigits fuel n → d < 10 := by
  intro fuel
  induction fuel with
  | zero => intro n d h; simp [revDigits] at h
  | succ f ih =>
    intro n d h
    by_cases hn : n = 0
    · simp [revDigits, hn] at h
    · simp only [revDigits, if_neg hn, List.mem_cons] at h
      rcases h with h | h
      · exact h ▸ Nat.mod_lt _ (by norm_num)
      · exact ih _ _ h

/-- Accumulator form of big-endian decimal evaluation. -/
def valA (a : Nat) (ds : List Nat) : Nat := ds.foldl (fun x d => x * 10 + d) a

theorem valA_nil (a : Nat) : valA a [] = a := rfl

theorem valA_append (a : Nat) (xs ys : List Nat) :
    valA a (xs ++ ys) = valA (valA a xs) ys := by
  simp [valA, List.foldl_append]

theorem revDigits_spec : ∀ (fuel n : Nat), n ≤ fuel → ∀ a : Nat,
    valA a ((revDigits fuel n).reverse) = a * 10 ^ (revDigits fuel n).length + n := by
  intro fuel
  induction fuel with
  | zero =>
    intro n hn a
    interval_cases n
    simp [revDigits, valA]
  | succ f ih =>
    intro n hn a
    by_cases hn0 : n = 0
    · simp [revDigits, hn0, valA]
    · have hpos : 0 < n := Nat.pos_of_ne_zero hn0
      have hdiv : n / 10 ≤ f := by
        have : n / 10 < n := Nat.div_lt_self hpos (by norm_num)
        omega
      simp only [revDigits, if_neg hn0, List.reverse_cons, List.length_cons]
      rw [valA_append, ih _ hdiv a]
      show (a * 10 ^ (revDigits f (n / 10)).length + n / 10) * 10 + n % 10 = _
      have hmod := Nat.div_add_mod n 10
      ring_nf
      omega

theorem valA_natBigDigits (n : Nat) : valA 0 (natBigDigits n) = n := by
  by_cases hn : n = 0
  · simp [natBigDigits, hn, valA]
  · simp only [natBigDigits, if_neg hn]
    have := revDigits_spec n n le_rfl 0
    simpa using this

theorem natBigDigits_lt {n d : Nat} (h : d ∈ natBigDigits n) : d < 10 := by
  by_cases hn : n = 0
  · simp [natBigDigits, hn] at h; omega
  · simp only [natBigDigits, if_neg hn, List.mem_reverse] at h
    exact mem_revDigits_lt _ _ _ h

theorem natBigDigits_ne_nil (n : Nat) : natBigDigits n ≠ [] := by
  by_cases hn : n = 0
  · simp [natBigDigits, hn]
  · have hpos : 0 < n := Nat.pos_of_ne_zero hn
    obtain ⟨f, hf⟩ : ∃ f, n = f + 1 := ⟨n - 1, by omega⟩
    simp [natBigDigits, hn, hf, revDigits, show f + 1 ≠ 0 by omega]

/-- Decimal-prefix scanner shared by the `stoi`/`stod` models: consumes
leading digit characters, returning the accumulated value, the number of
digits consumed and the unconsumed remainder. -/
def parseDigitsCnt (a k : Nat) : List Char → Nat × Nat × List Char
  | [] => (a, k, [])
  | c :: cs =>
    if c.isDigit then parseDigitsCnt (a * 10 + digitVal c) (k + 1) cs
    else (a, k, c :: cs)

theorem parseDigitsCnt_digits : ∀ (ds : List Nat) (a k : Nat), (∀ d ∈ ds, d < 10) →
    parseDigitsCnt a k (ds.map digitChar) = (valA a ds, k + ds.length, []) := by
  intro ds
  induction ds with
  | nil => intro a k _; simp [parseDigitsCnt, valA]
  | cons d ds ih =>
    intro a k h
    have hd : d < 10 := h d (List.mem_cons_self _ _)
    simp only [List.map_cons, parseDigitsCnt, isDigit_digitChar hd, if_true,
      digitVal_digitChar hd]
    rw [ih _ _ (fun x hx => h x (List.mem_cons_of_mem _ hx))]
    simp [valA, List.length_cons]
    omega

/-- Value of a leading digit run, or `none` when the input does not start
with a digit (the condition under which C++ `stoi` throws). -/
def leadDigitsVal : List Char → Option Nat
  | [] => none
  | c :: cs => if c.isDigit then some (parseDigitsCnt 0 0 (c :: cs)).1 else none

/-- Smallest value of a 32-bit `int`. -/
def intMin : Int := -2147483648

/-- Largest value of a 32-bit `int`. -/
def intMax : Int := 2147483647

/-- The range check of `std::stoi` on a 32-bit `int`: a parsed value
outside the range throws `std::out_of_range`, modelled as `none`. -/
def stoiRange (v : Int) : Option Int :=
  if v < intMin ∨ intMax < v then none else some v

/-- Sign-and-digits part of the `stoi` model, applied after whitespace
has been skipped, including the `int`-range check. -/
def cppStoiCore : List Char → Option Int
  | [] => none
  | c :: rest =>
    if c = '-' then (leadDigitsVal rest).bind (fun v => stoiRange (-(Int.ofNat v)))
    else if c = '+' then (leadDigitsVal rest).bind (fun v => stoiRange (Int.ofNat v))
    else (leadDigitsVal (c :: rest)).bind (fun v => stoiRange (Int.ofNat v))

/-- Model of C++ `std::stoi` (base 10): skip C-locale whitespace, read an
optional sign and a non-empty digit run (ignoring trailing characters);
`none` models the exceptions — `std::invalid_argument` when no digit
follows, `std::out_of_range` when the value exceeds the 32-bit `int`
range. -/
def cppStoi (cs : List Char) : Option Int :=
  cppStoiCore (cs.dropWhile cppIsSpace)

/-- Digit-run part of the `stod` model: integer digits, optionally a point
and fraction digits; at least one digit overall is required, trailing
characters are ignored.  Exponent and hexadecimal forms, which the program
never writes, are not modelled. -/
def stodBody (cs : List Char) : Option ℚ :=
  let r := parseDigitsCnt 0 0 cs
  match r.2.2 with
  | c :: fcs =>
    if c = '.' then
      let rf := parseDigitsCnt 0 0 fcs
      if r.2.1 + rf.2.1 = 0 then none
      else some ((r.1 : ℚ) + (rf.1 : ℚ) / (10 : ℚ) ^ rf.2.1)
    else if r.2.1 = 0 then none else some ((r.1 : ℚ))
  | [] => if r.2.1 = 0 then none else some ((r.1 : ℚ))

/-- Sign handling of the `stod` model, applied after whitespace has been
skipped. -/
def cppStodCore : List Char → Option ℚ
  | [] => none
  | c :: rest =>
    if c = '-' then (stodBody rest).map Neg.neg
    else if c = '+' then stodBody rest
    else stodBody (c :: rest)

/-- Model of C++ `std::stod` on plain decimal input (optional sign,
digits, optional point and fraction, trailing characters ignored); `none`
models the `std::invalid_argument` exception.  Exponent and hexadecimal
notation, infinities and NaNs, and magnitudes outside the finite `double`
range are **not** modelled: `stodModelled` below characterises the tokens
this function is a faithful model on, and every theorem that feeds tokens
to it restricts its domain to that fragment. -/
def cppStod (cs : List Char) : Option ℚ :=
  cppStodCore (cs.dropWhile cppIsSpace)

theorem natToString_data (n : Nat) :
    (natToString n).data = (natBigDigits n).map digitChar := rfl

theorem leadDigitsVal_natBigDigits (n : Nat) :
    leadDigitsVal ((natBigDigits n).map digitChar) = some n := by
  cases h : natBigDigits n with
  | nil => exact absurd h (natBigDigits_ne_nil n)
  | cons d ds =>
    have hd : d < 10 := natBigDigits_lt (h ▸ List.mem_cons_self _ _)
    have hall : ∀ x ∈ d :: ds, x < 10 := fun x hx => natBigDigits_lt (h ▸ hx)
    simp only [List.map_cons, leadDigitsVal, isDigit_digitChar hd, if_true]
    rw [← List.map_cons, parseDigitsCnt_digits _ _ _ hall]
    have := valA_natBigDigits n
    rw [h] at this
    simp [this]

theorem dropWhile_digits (n : Nat) :
    ((natBigDigits n).map digitChar).dropWhile cppIsSpace
      = (natBigDigits n).map digitChar := by
  cases h : natBigDigits n with
  | nil => simp
  | cons d ds =>
    have hd : d < 10 := natBigDigits_lt (h ▸ List.mem_cons_self _ _)
    simp [List.dropWhile_cons, cppIsSpace_digitChar hd]

theorem option_bind_some {α β : Type} (a : α) (f : α → Option β) :
    (some a).bind f = f a := rfl

theorem stoiRange_of_mem {v : Int} (h1 : intMin ≤ v) (h2 : v ≤ intMax) :
    stoiRange v = some v := by
  rw [stoiRange, if_neg]
  rintro (h | h)
  · omega
  · omega

theorem cppStoiCore_minus (l : List Char) :
    cppStoiCore ('-' :: l)
      = (leadDigitsVal l).bind (fun v => stoiRange (-(Int.ofNat v))) := rfl

theorem cppStoiCore_digits (n : Nat) (hn : (n : Int) ≤ intMax) :
    cppStoiCore ((natBigDigits n).map digitChar) = some (n : Int) := by
  cases h : natBigDigits n with
  | nil => exact absurd h (natBigDigits_ne_nil n)
  | cons d ds =>
    have hd : d < 10 := natBigDigits_lt (h ▸ List.mem_cons_self _ _)
    have hlead := leadDigitsVal_natBigDigits n
    rw [h] at hlead
    simp only [List.map_cons] at hlead
    simp only [List.map_cons, cppStoiCore, if_neg (digitChar_ne_minus hd),
      if_neg (digitChar_ne_plus hd), hlead, option_bind_some]
    have hmin : intMin ≤ (n : Int) := by
      have : intMin < 0 := by decide
      omega
    have : Int.ofNat n = (n : Int) := rfl
    rw [this, stoiRange_of_mem hmin hn]

theorem cppStoi_natToString (n : Nat) (hn : (n : Int) ≤ intMax) :
    cppStoi (natToString n).data = some (n : Int) := by
  rw [natToString_data, cppStoi, dropWhile_digits, cppStoiCore_digits n hn]

theorem intToString_data_neg {m : Int} (hm : m < 0) :
    (intToString m).data = '-' :: (natBigDigits m.natAbs).map digitChar := by
  rw [intToString, if_pos hm]
  rfl

theorem cppStoi_intToString (m : Int) (h1 : intMin ≤ m) (h2 : m ≤ intMax) :
    cppStoi (intToString m).data = some m := by
  by_cases hm : m < 0
  · rw [intToString_data_neg hm]
    have hdrop : ('-' :: (natBigDigits m.natAbs).map digitChar).dropWhile cppIsSpace
        = '-' :: (natBigDigits m.natAbs).map digitChar := by
      simp [List.dropWhile_cons, show cppIsSpace '-' = false from by decide]
    rw [cppStoi, hdrop, cppStoiCore_minus, leadDigitsVal_natBigDigits, option_bind_some]
    have hofnat : Int.ofNat m.natAbs = (m.natAbs : Int) := rfl
    have hval : -(Int.ofNat m.natAbs) = m := by
      rw [hofnat]
      omega
    rw [hval, stoiRange_of_mem h1 h2]
  · have hdata : intToString m = natToString m.toNat := by
      rw [intToString, if_neg hm]
    have htn : ((m.toNat : Nat) : Int) ≤ intMax := by omega
    rw [hdata, cppStoi_natToString m.toNat htn]
    rw [Option.some.injEq]
    omega

theorem stodBody_natBigDigits (n : Nat) :
    stodBody ((natBigDigits n).map digitChar) = some (n : ℚ) := by
  have hall : ∀ x ∈ natBigDigits n, x < 10 := fun x hx => natBigDigits_lt hx
  have hlen : (natBigDigits n).length ≠ 0 := by
    intro h
    exact natBigDigits_ne_nil n (List.length_eq_zero.mp h)
  simp only [stodBody, parseDigitsCnt_digits _ _ _ hall, valA_natBigDigits, Nat.zero_add]
  simp [hlen]

theorem cppStodCore_digits (n : Nat) :
    cppStodCore ((natBigDigits n).map digitChar) = some (n : ℚ) := by
  cases h : natBigDigits n with
  | nil => exact absurd h (natBigDigits_ne_nil n)
  | cons d ds =>
    have hd : d < 10 := natBigDigits_lt (h ▸ List.mem_cons_self _ _)
    have hbody := stodBody_natBigDigits n
    rw [h] at hbody
    simp only [List.map_cons] at hbody
    simp only [List.map_cons, cppStodCore, if_neg (digitChar_ne_minus hd),
      if_neg (digitChar_ne_plus hd), hbody]

theorem cppStodCore_minus (l : List Char) :
    cppStodCore ('-' :: l) = (stodBody l).map Neg.neg := rfl

theorem cppStod_intToString (m : Int) : cppStod (intToString m).data = some (m : ℚ) := by
  by_cases hm : m < 0
  · rw [intToString_data_neg hm]
    have hdrop : ('-' :: (natBigDigits m.natAbs).map digitChar).dropWhile cppIsSpace
        = '-' :: (natBigDigits m.natAbs).map digitChar := by
      simp [List.dropWhile_cons, show cppIsSpace '-' = false from by decide]
    rw [cppStod, hdrop, cppStodCore_minus, stodBody_natBigDigits]
    simp only [Option.map_some', Option.some.injEq]
    have habs : (m.natAbs : Int) = -m := by omega
    have hcast : ((m.natAbs : Nat) : ℚ) = (((-m : Int)) : ℚ) := by
      rw [← habs]
      exact (Int.cast_natCast _).symm
    rw [hcast]
    push_cast
    ring
  · have hdata : intToString m = natToString m.toNat := by
      rw [intToString, if_neg hm]
    rw [hdata, natToString_data, cppStod, dropWhile_digits, cppStodCore_digits]
    rw [Option.some.injEq]
    have h0 : (0 : Int) ≤ m := not_lt.mp hm
    exact_mod_cast congrArg (fun z : Int => (z : ℚ)) (Int.toNat_of_nonneg h0)

/-- Scientific rendering of an integral magnitude `n ≥ 10^6`, as produced
by C++ default stream output (defaultfloat, precision 6): six significant
digits, ties rounded to even as glibc does for exactly representable
values, trailing zeros stripped, a two-digit (minimum) exponent —
`1234567 ↦ "1.23457e+06"`. -/
def sciForm (n : Nat) : String :=
  let nd := (natBigDigits n).length
  let divisor := 10 ^ (nd - 6)
  let m := n / divisor
  let r := n % divisor
  let half := divisor / 2
  let mr := if half < r then m + 1 else if r < half then m
            else if m % 2 = 0 then m else m + 1
  let mant := if mr = 1000000 then 100000 else mr
  let ex := if mr = 1000000 then nd else nd - 1
  let stripped := ((natBigDigits mant).reverse.dropWhile (fun d => d = 0)).reverse
  let mantStr : String :=
    match stripped with
    | [] => "0"
    | d :: rest =>
      (⟨[digitChar d]⟩ : String)
        ++ (if rest.isEmpty then "" else "." ++ (⟨rest.map digitChar⟩ : String))
  mantStr ++ "e+" ++ (if ex < 10 then "0" ++ natToString ex else natToString ex)

/-- C++ default stream rendering of a `double`, modelled on `ℚ`: an
integral value of magnitude below `10^6` prints as its plain decimal
digits, an integral value of magnitude at least `10^6` prints in rounded
scientific form (`sciForm`), exact for doubles up to `2^53`.  Non-integral
doubles (whose `%g` rendering depends on the binary value, outside the
exact-ℚ abstraction) are marked by a fraction fallback; they lie outside
the domain of every theorem that uses this function. -/
def formatDouble (q : ℚ) : String :=
  if q.den = 1 then
    if q.num.natAbs < 1000000 then intToString q.num
    else (if q.num < 0 then "-" else "") ++ sciForm q.num.natAbs
  else intToString q.num ++ "/" ++ natToString q.den

theorem cppStod_formatDouble {q : ℚ} (h : q.den = 1)
    (hlt : q.num.natAbs < 1000000) :
    cppStod (formatDouble q).data = some q := by
  rw [formatDouble, if_pos h, if_pos hlt, cppStod_intToString]
  congr 1
  have hq := Rat.num_div_den q
  rw [h] at hq
  simpa using hq

/-- Whether the first characters of `cs` continue as a decimal exponent
marker, which `std::stod` would consume but the model does not. -/
def notExpHead (cs : List Char) : Bool :=
  match cs with
  | [] => true
  | c :: _ => !(c = 'e' || c = 'E')

/-- Whether a sign-stripped token body lies in the fragment on which
`stodBody` is a faithful model of `std::stod`: it must not begin an
infinity/NaN form or a hexadecimal prefix, the consumed numeric prefix
must not be followed by an exponent marker, and at most 200 integer and
200 fraction digits keep the value inside the finite normal `double`
range, so the real `std::stod` neither consumes more than the model nor
throws `std::out_of_range`. -/
def stodBodyModelled (body : List Char) : Bool :=
  match body with
  | [] => true
  | b :: bs =>
    if b = 'i' || b = 'I' || b = 'n' || b = 'N' then false
    else if b = '0' && (bs.head? = some 'x' || bs.head? = some 'X') then false
    else
      let r := parseDigitsCnt 0 0 body
      match r.2.2 with
      | c :: fcs =>
        if c = '.' then
          let rf := parseDigitsCnt 0 0 fcs
          notExpHead rf.2.2 && decide (r.2.1 ≤ 200) && decide (rf.2.1 ≤ 200)
        else !(c = 'e' || c = 'E') && decide (r.2.1 ≤ 200)
      | [] => decide (r.2.1 ≤ 200)

/-- Whether a whole token lies in the fragment on which `cppStod` is a
faithful model of `std::stod` (see `stodBodyModelled`); tokens outside it
are excluded from the domain of every load theorem. -/
def stodModelled (cs : List Char) : Bool :=
  match cs.dropWhile cppIsSpace with
  | [] => true
  | c :: rest =>
    if c = '-' || c = '+' then stodBodyModelled rest
    else stodBodyModelled (c :: rest)

/-- Prepend a character to the first token of a token list. -/
def consHead (c : Char) : List (List Char) → List (List Char)
  | [] => [[c]]
  | t :: ts => (c :: t) :: ts

/-- Split a character sequence at every occurrence of a separator; the
comma instance models the token loop of `loadFromFile`, the newline
instance models `getline`'s division of the file into physical lines. -/
def splitAtSep (sep : Char) : List Char → List (List Char)
  | [] => [[]]
  | c :: cs =>
    if c = sep then [] :: splitAtSep sep cs
    else consHead c (splitAtSep sep cs)

theorem splitAtSep_ne_nil (sep : Char) : ∀ cs : List Char, splitAtSep sep cs ≠ [] := by
  intro cs
  induction cs with
  | nil => simp [splitAtSep]
  | cons c cs ih =>
    by_cases hc : c = sep
    · simp [splitAtSep, hc]
    · simp only [splitAtSep, if_neg hc]
      cases h : splitAtSep sep cs with
      | nil => simp [consHead]
      | cons t ts => simp [consHead]

theorem splitAtSep_cons (sep c : Char) (cs : List Char) :
    splitAtSep sep (c :: cs)
      = if c = sep then [] :: splitAtSep sep cs
        else consHead c (splitAtSep sep cs) := rfl

theorem splitAtSep_append {sep : Char} {a : List Char} (rest : List Char)
    (h : ∀ c ∈ a, c ≠ sep) :
    splitAtSep sep (a ++ sep :: rest) = a :: splitAtSep sep rest := by
  induction a with
  | nil => simp [splitAtSep]
  | cons c a ih =>
    have hc : c ≠ sep := h c (List.mem_cons_self _ _)
    have ha : ∀ x ∈ a, x ≠ sep := fun x hx => h x (List.mem_cons_of_mem _ hx)
    rw [List.cons_append, splitAtSep_cons, if_neg hc, ih ha]
    rfl

theorem splitAtSep_no_sep {sep : Char} {a : List Char} (h : ∀ c ∈ a, c ≠ sep) :
    splitAtSep sep a = [a] := by
  induction a with
  | nil => rfl
  | cons c a ih =>
    have hc : c ≠ sep := h c (List.mem_cons_self _ _)
    have ha : ∀ x ∈ a, x ≠ sep := fun x hx => h x (List.mem_cons_of_mem _ hx)
    simp only [splitAtSep, if_neg hc, ih ha, consHead]

/-- The comma tokenizer of `loadFromFile`: repeated `find(',')`/`substr`/
`erase`, with the final remainder appended as the last token. -/
def splitAtCommas (cs : List Char) : List (List Char) := splitAtSep ',' cs

theorem splitAtCommas_ne_nil : ∀ cs : List Char, splitAtCommas cs ≠ [] :=
  splitAtSep_ne_nil ','

theorem splitAtCommas_append {a : List Char} (rest : List Char)
    (h : ∀ c ∈ a, c ≠ ',') :
    splitAtCommas (a ++ ',' :: rest) = a :: splitAtCommas rest :=
  splitAtSep_append rest h

theorem splitAtCommas_no_comma {a : List Char} (h : ∀ c ∈ a, c ≠ ',') :
    splitAtCommas a = [a] :=
  splitAtSep_no_sep h

theorem data_append (s t : String) : (s ++ t).data = s.data ++ t.data := rfl

theorem intToString_no_comma (m : Int) : ∀ c ∈ (intToString m).data, c ≠ ',' := by
  intro c hc
  by_cases hm : m < 0
  · rw [intToString_data_neg hm] at hc
    rcases List.mem_cons.mp hc with h | h
    · subst h; decide
    · obtain ⟨d, hd, rfl⟩ := List.mem_map.mp h
      exact digitChar_ne_comma (natBigDigits_lt hd)
  · have hdata : intToString m = natToString m.toNat := by
      rw [intToString, if_neg hm]
    rw [hdata, natToString_data] at hc
    obtain ⟨d, hd, rfl⟩ := List.mem_map.mp hc
    exact digitChar_ne_comma (natBigDigits_lt hd)

theorem natToString_no_comma (n : Nat) : ∀ c ∈ (natToString n).data, c ≠ ',' := by
  intro c hc
  rw [natToString_data] at hc
  obtain ⟨d, hd, rfl⟩ := List.mem_map.mp hc
  exact digitChar_ne_comma (natBigDigits_lt hd)

theorem formatDouble_no_comma {q : ℚ} (h : q.den = 1)
    (hlt : q.num.natAbs < 1000000) : ∀ c ∈ (formatDouble q).data, c ≠ ',' := by
  rw [formatDouble, if_pos h, if_pos hlt]
  exact intToString_no_comma _

theorem intToString_no_newline (m : Int) : ∀ c ∈ (intToString m).data, c ≠ '\n' := by
  intro c hc
  by_cases hm : m < 0
  · rw [intToString_data_neg hm] at hc
    rcases List.mem_cons.mp hc with h | h
    · subst h; decide
    · obtain ⟨d, hd, rfl⟩ := List.mem_map.mp h
      exact digitChar_ne_newline (natBigDigits_lt hd)
  · have hdata : intToString m = natToString m.toNat := by
      rw [intToString, if_neg hm]
    rw [hdata, natToString_data] at hc
    obtain ⟨d, hd, rfl⟩ := List.mem_map.mp hc
    exact digitChar_ne_newline (natBigDigits_lt hd)

theorem formatDouble_no_newline {q : ℚ} (h : q.den = 1)
    (hlt : q.num.natAbs < 1000000) : ∀ c ∈ (formatDouble q).data, c ≠ '\n' := by
  rw [formatDouble, if_pos h, if_pos hlt]
  exact intToString_no_newline _

end StrUtil

namespace Baseline

open StrUtil

/-- Kind-specific payload of an inventory record: the fields added by the
derived classes `Electronics` and `Grocery`. -/
inductive ItemDetails where
  | electronics (brand : String) (warrantyMonths : Int)
  | grocery (expiryDate : String) (category : String)
deriving DecidableEq, Repr

/-- The polymorphic `InventoryItem` base object together with its derived
payload: common fields `id`, `name`, `price`, `quantity` plus the
kind-specific payload; the `type` string of the source is determined by
the payload (see `getType`). -/
structure InventoryItem where
  id : Int
  name : String
  price : ℚ
  quantity : Int
  details : ItemDetails
deriving DecidableEq, Repr

/-- The `type` field set by each derived-class constructor. -/
def getType (it : InventoryItem) : String :=
  match it.details with
  | .electronics _ _ => "Electronics"
  | .grocery _ _ => "Grocery"

/-- The `Grocery::isValidDate` shape check: exactly 10 characters with
dashes at positions 4 and 7. -/
def isValidDate (date : String) : Bool :=
  date.length == 10 && date.data.get? 4 == some '-' && date.data.get? 7 == some '-'

/-- The `Electronics` constructor: clamps the warranty to be non-negative. -/
def mkElectronics (id : Int) (name : String) (price : ℚ) (quantity : Int)
    (brand : String) (warranty : Int) : InventoryItem :=
  ⟨id, name, price, quantity, .electronics brand (max 0 warranty)⟩

/-- The `Grocery` constructor: substitutes the sentinel date when the
expiry string fails the shape check. -/
def mkGrocery (id : Int) (name : String) (price : ℚ) (quantity : Int)
    (expiry : String) (category : String) : InventoryItem :=
  ⟨id, name, price, quantity,
    .grocery (if isValidDate expiry then expiry else "2023-12-31") category⟩

/-- `getDetailsForFile`: the kind-specific tokens appended to a persisted
line. -/
def getDetailsForFile (it : InventoryItem) : String :=
  match it.details with
  | .electronics brand w => brand ++ "," ++ intToString w
  | .grocery e c => e ++ "," ++ c

/-- The `InventorySystem` state: the ordered record sequence and the id
counter (initially 1).  The data-file path is configuration, not state. -/
structure InventorySystem where
  inventory : List InventoryItem
  nextId : Int := 1
deriving DecidableEq, Repr

/-- `findItemById`: linear scan returning the first record with the id. -/
def findItemById : List InventoryItem → Int → Option InventoryItem
  | [], _ => none
  | it :: rest, id => if it.id = id then some it else findItemById rest id

/-- One line of `saveToFile`: `id,type,name,price,quantity,<details>`. -/
def encodeItem (it : InventoryItem) : String :=
  intToString it.id ++ "," ++ getType it ++ "," ++ it.name ++ ","
    ++ formatDouble it.price ++ "," ++ intToString it.quantity ++ ","
    ++ getDetailsForFile it

/-- The byte stream `saveToFile` writes: for each record in store order,
its encoded line followed by a `'\n'` terminator. -/
def saveToFileContents (sys : InventorySystem) : List Char :=
  (sys.inventory.map (fun it => (encodeItem it).data ++ ['\n'])).flatten

/-- The physical lines `getline` produces from a byte stream inside the
`while (getline(inFile, line))` loop: segments between newlines, with no
extra empty line after a terminating newline (at end-of-file with nothing
read, `getline` fails and the loop stops). -/
def getlineSplit (cs : List Char) : List String :=
  if cs = [] then []
  else if cs.getLast? = some '\n' then
    ((StrUtil.splitAtSep '\n' cs).dropLast).map (fun t => (⟨t⟩ : String))
  else (StrUtil.splitAtSep '\n' cs).map (fun t => (⟨t⟩ : String))

/-- Result of `addItem`; the source returns `false` for both error cases
but reports them through distinct diagnostics, recorded here as distinct
constructors.  `saved` carries the `saveToFile` result. -/
inductive AddResult where
  | nullItem
  | duplicateId
  | saved (ok : Bool)
deriving DecidableEq, Repr

/-- `InventorySystem::addItem`: reject null, reject duplicate ids (the
candidate is deleted/discarded), otherwise append and persist. -/
def addItem (sys : InventorySystem) (item : Option InventoryItem) (ioOk : Bool) :
    AddResult × InventorySystem :=
  match item with
  | none => (.nullItem, sys)
  | some it =>
    if (findItemById sys.inventory it.id).isSome then (.duplicateId, sys)
    else (.saved ioOk, { sys with inventory := sys.inventory ++ [it] })

/-- Result of `updateStock`, distinguishing the two diagnostics the source
emits alongside its `false` returns. -/
inductive UpdateResult where
  | notFound
  | wouldGoNegative
  | applied (saved : Bool) (newQuantity : Int)
deriving DecidableEq, Repr

/-- Mutate the first record with the given id in place, as the source does
through the pointer returned by `findItemById`. -/
def applyToFirst (f : InventoryItem → InventoryItem) :
    List InventoryItem → Int → List InventoryItem
  | [], _ => []
  | it :: rest, id =>
    if it.id = id then f it :: rest else it :: applyToFirst f rest id

/-- `InventorySystem::updateStock`: strict policy — a delta that would
drive the quantity negative is rejected and nothing is mutated. -/
def updateStock (sys : InventorySystem) (id amount : Int) (ioOk : Bool) :
    UpdateResult × InventorySystem :=
  match findItemById sys.inventory id with
  | none => (.notFound, sys)
  | some item =>
    let newQuantity := item.quantity + amount
    if newQuantity < 0 then (.wouldGoNegative, sys)
    else
      (.applied ioOk newQuantity,
       { sys with
          inventory :=
            applyToFirst (fun j => { j with quantity := j.quantity + amount })
              sys.inventory id })

/-- Result of `removeItem`. -/
inductive RemoveResult where
  | notFound
  | removed (saved : Bool) (removedName : String)
deriving DecidableEq, Repr

/-- Erase the first record with the given id, returning its name and the
remaining sequence. -/
def removeById : List InventoryItem → Int → Option (String × List InventoryItem)
  | [], _ => none
  | it :: rest, id =>
    if it.id = id then some (it.name, rest)
    else (removeById rest id).map (fun p => (p.1, it :: p.2))

/-- `InventorySystem::removeItem`: erase the first matching record and
persist; `notFound` otherwise. -/
def removeItem (sys : InventorySystem) (id : Int) (ioOk : Bool) :
    RemoveResult × InventorySystem :=
  match removeById sys.inventory id with
  | none => (.notFound, sys)
  | some p => (.removed ioOk p.1, { sys with inventory := p.2 })

/-- `InventorySystem::getNextId`: return the counter and post-increment. -/
def getNextId (sys : InventorySystem) : Int × InventorySystem :=
  (sys.nextId, { sys with nextId := sys.nextId + 1 })

/-- The report loop of `generateLowStockReport`, accumulating the printed
rows and the `found` flag. -/
def lowStockLoop (threshold : Int) : List InventoryItem → List InventoryItem × Bool
  | [] => ([], false)
  | it :: rest =>
    let r := lowStockLoop threshold rest
    if it.quantity < threshold then (it :: r.1, true) else r

/-- The rows printed by `generateLowStockReport` (records with quantity
strictly below the threshold, in store order) together with the `found`
flag; the default threshold is 5. -/
def generateLowStockReport (sys : InventorySystem) (threshold : Int := 5) :
    List InventoryItem × Bool :=
  lowStockLoop threshold sys.inventory

/-- One iteration of the `loadFromFile` loop.  A line is split at commas;
with at least 5 tokens the numeric fields are parsed (`.error` models the
uncaught `std::invalid_argument` / `std::out_of_range` of `stoi`/`stod`,
whose `what()` in libstdc++ is just the function name), a record with
placeholder payload is appended for a known kind tag, and the id counter
is advanced; with fewer than 5 tokens the line is skipped. -/
def loadLine (st : List InventoryItem × Int) (line : String) :
    Except String (List InventoryItem × Int) :=
  match splitAtCommas line.data with
  | t0 :: t1 :: t2 :: t3 :: t4 :: _ =>
    match cppStoi t0 with
    | none => .error "stoi"
    | some id =>
      match cppStod t3 with
      | none => .error "stod"
      | some price =>
        match cppStoi t4 with
        | none => .error "stoi"
        | some quantity =>
          let name : String := ⟨t2⟩
          let items :=
            if t1 = "Electronics".data then
              st.1 ++ [mkElectronics id name price quantity "Brand" 12]
            else if t1 = "Grocery".data then
              st.1 ++ [mkGrocery id name price quantity "2024-12-31" "Category"]
            else st.1
          .ok (items, if id ≥ st.2 then id + 1 else st.2)
  | _ => .ok st

/-- The `loadFromFile` loop over all lines, threading the record list and
id counter. -/
def loadLines : List String → List InventoryItem × Int →
    Except String (List InventoryItem × Int)
  | [], st => .ok st
  | l :: ls, st =>
    match loadLine st l with
    | .error e => .error e
    | .ok st' => loadLines ls st'

/-- `InventorySystem::loadFromFile` from an empty store with counter 1 (the
constructor's state). -/
def loadFromFile (lines : List String) : Except String (List InventoryItem × Int) :=
  loadLines lines ([], 1)

/-- The record `loadFromFile` reconstructs from a persisted record: the
common fields survive, the payload is replaced by fixed placeholders. -/
def placeholderItem (it : InventoryItem) : InventoryItem :=
  match it.details with
  | .electronics _ _ => mkElectronics it.id it.name it.price it.quantity "Brand" 12
  | .grocery _ _ => mkGrocery it.id it.name it.price it.quantity "2024-12-31" "Category"

/-- Counter recomputation performed by the load loop. -/
def ctrFold (acc : Int) (ids : List Int) : Int :=
  ids.foldl (fun a i => if i ≥ a then i + 1 else a) acc

/-- Maximum of the stored ids (with floor 0), the value one past which the
loader advances the counter. -/
def maxIdOf (items : List InventoryItem) : Int :=
  (items.map (fun it => it.id)).foldl max 0

end Baseline

namespace Baseline

open StrUtil

theorem findItemById_of_decomp {pre post : List InventoryItem}
    {it : InventoryItem} {id : Int}
    (hpre : ∀ j ∈ pre, j.id ≠ id) (hit : it.id = id) :
    findItemById (pre ++ it :: post) id = some it := by
  induction pre with
  | nil => simp [findItemById, hit]
  | cons p pre ih =>
    have hp : p.id ≠ id := hpre p (List.mem_cons_self _ _)
    simp only [List.cons_append, findItemById, if_neg hp]
    exact ih (fun j hj => hpre j (List.mem_cons_of_mem _ hj))

theorem findItemById_of_none {items : List InventoryItem} {id : Int}
    (h : ∀ j ∈ items, j.id ≠ id) :
    findItemById items id = none := by
  induction items with
  | nil => rfl
  | cons p items ih =>
    have hp : p.id ≠ id := h p (List.mem_cons_self _ _)
    simp only [findItemById, if_neg hp]
    exact ih (fun j hj => h j (List.mem_cons_of_mem _ hj))

theorem findItemById_isSome_iff (items : List InventoryItem) (id : Int) :
    (findItemById items id).isSome = true ↔ ∃ j ∈ items, j.id = id := by
  induction items with
  | nil => simp [findItemById]
  | cons p items ih =>
    by_cases hp : p.id = id
    · simp [findItemById, if_pos hp, hp]
    · simp only [findItemById, if_neg hp, List.mem_cons]
      rw [ih]
      constructor
      · rintro ⟨j, hj, hid⟩
        exact ⟨j, Or.inr hj, hid⟩
      · rintro ⟨j, hj | hj, hid⟩
        · exact absurd (hj ▸ hid) hp
        · exact ⟨j, hj, hid⟩

theorem applyToFirst_cons (f : InventoryItem → InventoryItem)
    (p : InventoryItem) (rest : List InventoryItem) (id : Int) :
    applyToFirst f (p :: rest) id
      = if p.id = id then f p :: rest else p :: applyToFirst f rest id := rfl

theorem applyToFirst_of_decomp (f : InventoryItem → InventoryItem)
    {pre post : List InventoryItem} {it : InventoryItem} {id : Int}
    (hpre : ∀ j ∈ pre, j.id ≠ id) (hit : it.id = id) :
    applyToFirst f (pre ++ it :: post) id = pre ++ f it :: post := by
  induction pre with
  | nil => simp [applyToFirst_cons, hit]
  | cons p pre ih =>
    have hp : p.id ≠ id := hpre p (List.mem_cons_self _ _)
    rw [List.cons_append, applyToFirst_cons, if_neg hp,
      ih (fun j hj => hpre j (List.mem_cons_of_mem _ hj)), List.cons_append]

theorem removeById_cons (p : InventoryItem) (rest : List InventoryItem) (id : Int) :
    removeById (p :: rest) id
      = if p.id = id then some (p.name, rest)
        else (removeById rest id).map (fun q => (q.1, p :: q.2)) := rfl

theorem removeById_of_decomp {pre post : List InventoryItem}
    {it : InventoryItem} {id : Int}
    (hpre : ∀ j ∈ pre, j.id ≠ id) (hit : it.id = id) :
    removeById (pre ++ it :: post) id = some (it.name, pre ++ post) := by
  induction pre with
  | nil => simp [removeById_cons, hit]
  | cons p pre ih =>
    have hp : p.id ≠ id := hpre p (List.mem_cons_self _ _)
    rw [List.cons_append, removeById_cons, if_neg hp,
      ih (fun j hj => hpre j (List.mem_cons_of_mem _ hj)), Option.map_some']
    rfl

theorem removeById_of_none {items : List InventoryItem} {id : Int}
    (h : ∀ j ∈ items, j.id ≠ id) :
    removeById items id = none := by
  induction items with
  | nil => rfl
  | cons p items ih =>
    have hp : p.id ≠ id := h p (List.mem_cons_self _ _)
    simp only [removeById, if_neg hp]
    rw [ih (fun j hj => h j (List.mem_cons_of_mem _ hj))]
    rfl

theorem getType_electronics {it : InventoryItem} {b : String} {w : Int}
    (hdet : it.details = .electronics b w) : getType it = "Electronics" := by
  simp [getType, hdet]

theorem getType_grocery {it : InventoryItem} {e c : String}
    (hdet : it.details = .grocery e c) : getType it = "Grocery" := by
  simp [getType, hdet]

theorem getType_no_comma (it : InventoryItem) :
    ∀ c ∈ (getType it).data, c ≠ ',' := by
  intro c hc hEq
  subst hEq
  cases hdet : it.details with
  | electronics b w =>
    rw [getType_electronics hdet] at hc
    exact absurd hc (by decide)
  | grocery e cat =>
    rw [getType_grocery hdet] at hc
    exact absurd hc (by decide)

/-- Character-level decomposition of an encoded line into its six
comma-separated segments. -/
theorem encodeItem_data_decomp (it : InventoryItem) :
    (encodeItem it).data
      = (intToString it.id).data ++ ',' :: ((getType it).data ++ ',' :: (it.name.data
          ++ ',' :: ((formatDouble it.price).data ++ ',' :: ((intToString it.quantity).data
          ++ ',' :: (getDetailsForFile it).data)))) := by
  simp only [encodeItem, data_append]
  simp [List.append_assoc]

/-- The fragment of records on which the textual persistence round-trip
is faithful: the name is free of commas (the format has no escaping) and
of newlines (a newline would be re-split by `getline`), the kind-specific
payload tokens are free of newlines, the price is integral with magnitude
below `10^6` (larger doubles print in rounded scientific form, see
`formatDouble`), and id and quantity lie in the 32-bit `int` range every
real `int` field satisfies (`stoi` throws beyond it). -/
def persistFaithful (it : InventoryItem) : Prop :=
  (∀ c ∈ it.name.data, c ≠ ',' ∧ c ≠ '\n')
  ∧ (∀ c ∈ (getDetailsForFile it).data, c ≠ '\n')
  ∧ it.price.den = 1 ∧ it.price.num.natAbs < 1000000
  ∧ intMin ≤ it.id ∧ it.id ≤ intMax
  ∧ intMin ≤ it.quantity ∧ it.quantity ≤ intMax

instance (it : InventoryItem) : Decidable (persistFaithful it) := by
  rw [persistFaithful]
  infer_instance

theorem getType_no_newline (it : InventoryItem) :
    ∀ c ∈ (getType it).data, c ≠ '\n' := by
  intro c hc hEq
  subst hEq
  cases hdet : it.details with
  | electronics b w =>
    rw [getType_electronics hdet] at hc
    exact absurd hc (by decide)
  | grocery e cat =>
    rw [getType_grocery hdet] at hc
    exact absurd hc (by decide)

/-- Under `persistFaithful`, an encoded line contains no newline, so the
written byte stream re-splits into exactly one physical line per
record. -/
theorem encodeItem_no_newline {it : InventoryItem} (h : persistFaithful it) :
    ∀ c ∈ (encodeItem it).data, c ≠ '\n' := by
  obtain ⟨hname, hdet, hden, hlt, -⟩ := h
  intro c hc
  rw [encodeItem_data_decomp] at hc
  simp only [List.mem_append, List.mem_cons] at hc
  rcases hc with h1 | h1 | h1 | h1 | h1 | h1 | h1 | h1 | h1 | h1 | h1
  · exact intToString_no_newline _ _ h1
  · subst h1; decide
  · exact getType_no_newline _ _ h1
  · subst h1; decide
  · exact (hname c h1).2
  · subst h1; decide
  · exact formatDouble_no_newline hden hlt _ h1
  · subst h1; decide
  · exact intToString_no_newline _ _ h1
  · subst h1; decide
  · exact hdet c h1

/-- Token decomposition of an encoded line whose name contains no comma
and whose price prints as plain digits. -/
theorem splitAtCommas_encodeItem {it : InventoryItem}
    (hname : ∀ c ∈ it.name.data, c ≠ ',')
    (hden : it.price.den = 1) (hlt : it.price.num.natAbs < 1000000) :
    splitAtCommas (encodeItem it).data
      = (intToString it.id).data :: (getType it).data :: it.name.data
          :: (formatDouble it.price).data :: (intToString it.quantity).data
          :: splitAtCommas (getDetailsForFile it).data := by
  rw [encodeItem_data_decomp]
  rw [splitAtCommas_append _ (intToString_no_comma it.id)]
  rw [splitAtCommas_append _ (getType_no_comma it)]
  rw [splitAtCommas_append _ hname]
  rw [splitAtCommas_append _ (formatDouble_no_comma hden hlt)]
  rw [splitAtCommas_append _ (intToString_no_comma it.quantity)]

theorem string_mk_data (s : String) : (⟨s.data⟩ : String) = s := rfl

/-- Loading an encoded record appends the placeholder reconstruction and
advances the counter at its id. -/
theorem loadLine_encodeItem (st : List InventoryItem × Int) {it : InventoryItem}
    (h : persistFaithful it) :
    loadLine st (encodeItem it)
      = .ok (st.1 ++ [placeholderItem it],
             if it.id ≥ st.2 then it.id + 1 else st.2) := by
  obtain ⟨hname, hdetnl, hden, hlt, hid1, hid2, hq1, hq2⟩ := h
  have hname' : ∀ c ∈ it.name.data, c ≠ ',' := fun c hc => (hname c hc).1
  have hsid := cppStoi_intToString it.id hid1 hid2
  have hsq := cppStoi_intToString it.quantity hq1 hq2
  cases hdet : it.details with
  | electronics b w =>
    have hty : getType it = "Electronics" := getType_electronics hdet
    have hph : placeholderItem it
        = mkElectronics it.id it.name it.price it.quantity "Brand" 12 := by
      simp [placeholderItem, hdet]
    simp only [loadLine, splitAtCommas_encodeItem hname' hden hlt, hsid, hsq,
      cppStod_formatDouble hden hlt, hty, string_mk_data, hph]
    simp
  | grocery e c =>
    have hty : getType it = "Grocery" := getType_grocery hdet
    have hph : placeholderItem it
        = mkGrocery it.id it.name it.price it.quantity "2024-12-31" "Category" := by
      simp [placeholderItem, hdet]
    have h1 : ¬(("Grocery" : String).data = ("Electronics" : String).data) := by decide
    simp only [loadLine, splitAtCommas_encodeItem hname' hden hlt, hsid, hsq,
      cppStod_formatDouble hden hlt, hty, string_mk_data, hph, if_neg h1]
    simp

/-- Loading the encoded lines of a faithful store reconstructs the
placeholder records and folds the counter over the stored ids. -/
theorem loadLines_encodeItems : ∀ (items : List InventoryItem),
    (∀ it ∈ items, persistFaithful it) →
    ∀ st : List InventoryItem × Int,
    loadLines (items.map encodeItem) st
      = .ok (st.1 ++ items.map placeholderItem,
             ctrFold st.2 (items.map (fun it => it.id))) := by
  intro items
  induction items with
  | nil => intro _ st; simp [loadLines, ctrFold]
  | cons it items ih =>
    intro h st
    have hit := h it (List.mem_cons_self _ _)
    have hrest := fun j hj => h j (List.mem_cons_of_mem _ hj)
    have hline := loadLine_encodeItem st hit
    simp only [List.map_cons, loadLines, hline]
    rw [ih hrest]
    simp [ctrFold, List.append_assoc]

/-- Splitting the concatenation of newline-terminated newline-free lines
at newlines yields the lines plus one final empty segment. -/
theorem splitAtSep_newline_join : ∀ (ls : List (List Char)),
    (∀ l ∈ ls, ∀ c ∈ l, c ≠ '\n') →
    StrUtil.splitAtSep '\n' ((ls.map (fun l => l ++ ['\n'])).flatten) = ls ++ [[]] := by
  intro ls
  induction ls with
  | nil => intro _; simp [StrUtil.splitAtSep]
  | cons l ls ih =>
    intro h
    simp only [List.map_cons, List.flatten_cons, List.append_assoc, List.singleton_append]
    rw [StrUtil.splitAtSep_append _ (h l (List.mem_cons_self _ _))]
    rw [ih (fun x hx => h x (List.mem_cons_of_mem _ hx))]
    rfl

/-- A non-empty concatenation of newline-terminated lines ends in a
newline. -/
theorem join_lines_concat : ∀ (ls : List (List Char)), ls ≠ [] →
    ∃ a, (ls.map (fun l => l ++ ['\n'])).flatten = a ++ ['\n'] := by
  intro ls
  induction ls with
  | nil => intro h; exact absurd rfl h
  | cons l ls ih =>
    intro _
    cases hls : ls with
    | nil => exact ⟨l, by simp⟩
    | cons l2 ls2 =>
      obtain ⟨a, ha⟩ := ih (by simp [hls])
      rw [← hls]
      refine ⟨l ++ '\n' :: a, ?_⟩
      simp only [List.map_cons, List.flatten_cons, ha]
      simp

/-- `getline` recovers exactly the written lines from a stream of
newline-terminated newline-free lines. -/
theorem getlineSplit_of_lines (ls : List (List Char))
    (h : ∀ l ∈ ls, ∀ c ∈ l, c ≠ '\n') :
    getlineSplit ((ls.map (fun l => l ++ ['\n'])).flatten)
      = ls.map (fun l => (⟨l⟩ : String)) := by
  cases hls : ls with
  | nil => simp [getlineSplit]
  | cons l rest =>
    rw [← hls]
    obtain ⟨a, ha⟩ := join_lines_concat ls (by simp [hls])
    have hne : (ls.map (fun l => l ++ ['\n'])).flatten ≠ [] := by
      rw [ha]
      simp
    have hlast : ((ls.map (fun l => l ++ ['\n'])).flatten).getLast? = some '\n' := by
      rw [ha]
      simp
    rw [getlineSplit, if_neg hne, if_pos hlast, splitAtSep_newline_join ls h,
      List.dropLast_concat]

/-- The byte stream written by `saveToFile` re-splits under `getline` into
exactly the encoded record lines, provided no record smuggles a newline
into them. -/
theorem getlineSplit_saveToFileContents (sys : InventorySystem)
    (h : ∀ it ∈ sys.inventory, ∀ c ∈ (encodeItem it).data, c ≠ '\n') :
    getlineSplit (saveToFileContents sys) = sys.inventory.map encodeItem := by
  have hrw : saveToFileContents sys
      = (((sys.inventory.map (fun it => (encodeItem it).data)).map
          (fun l => l ++ ['\n'])).flatten) := by
    rw [saveToFileContents, List.map_map]
    rfl
  rw [hrw]
  rw [getlineSplit_of_lines _ (by
    intro l hl
    obtain ⟨it, hit, rfl⟩ := List.mem_map.mp hl
    exact h it hit)]
  rw [List.map_map]
  rfl

theorem ctrFold_step (acc i : Int) :
    (if i ≥ acc then i + 1 else acc) = max acc (i + 1) := by
  rcases le_or_lt acc i with h | h
  · rw [if_pos h, max_eq_right (by omega)]
  · rw [if_neg (by omega), max_eq_left (by omega)]

theorem ctrFold_eq_max : ∀ (ids : List Int) (acc : Int),
    ctrFold acc ids = ids.foldl (fun a i => max a (i + 1)) acc := by
  intro ids
  induction ids with
  | nil => intro acc; rfl
  | cons i ids ih =>
    intro acc
    simp only [ctrFold, List.foldl_cons] at *
    rw [ctrFold_step, ih]

theorem foldl_max_succ : ∀ (ids : List Int) (acc : Int),
    ids.foldl (fun a i => max a (i + 1)) (acc + 1) = ids.foldl max acc + 1 := by
  intro ids
  induction ids with
  | nil => intro acc; rfl
  | cons i ids ih =>
    intro acc
    simp only [List.foldl_cons]
    rw [show max (acc + 1) (i + 1) = max acc i + 1 from by omega, ih]

theorem ctrFold_one (ids : List Int) :
    ctrFold 1 ids = ids.foldl max 0 + 1 := by
  rw [ctrFold_eq_max]
  have := foldl_max_succ ids 0
  simpa using this

theorem le_foldl_max : ∀ (ids : List Int) (acc : Int),
    acc ≤ ids.foldl max acc ∧ ∀ i ∈ ids, i ≤ ids.foldl max acc := by
  intro ids
  induction ids with
  | nil => intro acc; exact ⟨le_rfl, by simp⟩
  | cons i ids ih =>
    intro acc
    obtain ⟨h1, h2⟩ := ih (max acc i)
    simp only [List.foldl_cons]
    constructor
    · exact le_trans (le_max_left _ _) h1
    · intro j hj
      rcases List.mem_cons.mp hj with h | h
      · subst h
        exact le_trans (le_max_right _ _) h1
      · exact h2 j h

theorem foldl_max_mem : ∀ (ids : List Int) (acc : Int),
    ids.foldl max acc = acc ∨ ids.foldl max acc ∈ ids := by
  intro ids
  induction ids with
  | nil => intro acc; exact Or.inl rfl
  | cons i ids ih =>
    intro acc
    simp only [List.foldl_cons]
    rcases ih (max acc i) with h | h
    · rcases max_choice acc i with hm | hm
      · exact Or.inl (h.trans hm)
      · refine Or.inr ?_
        rw [h, hm]
        exact List.mem_cons_self _ _
    · exact Or.inr (List.mem_cons_of_mem _ h)

theorem maxIdOf_mem {items : List InventoryItem}
    (hne : items ≠ []) (hpos : ∀ it ∈ items, 0 ≤ it.id) :
    maxIdOf items ∈ items.map (fun it => it.id) := by
  have hM : maxIdOf items = (items.map (fun it => it.id)).foldl max 0 := rfl
  rcases foldl_max_mem (items.map (fun it => it.id)) 0 with h | h
  · obtain ⟨it0, hit0⟩ : ∃ it0, it0 ∈ items := by
      cases items with
      | nil => exact absurd rfl hne
      | cons a l => exact ⟨a, List.mem_cons_self _ _⟩
    have hid0 : it0.id ∈ items.map (fun it => it.id) := List.mem_map_of_mem _ hit0
    have hle := (le_foldl_max (items.map (fun it => it.id)) 0).2 _ hid0
    rw [h] at hle
    have h0 : 0 ≤ it0.id := hpos it0 hit0
    have hz : it0.id = 0 := le_antisymm hle h0
    rw [hM, h]
    exact hz ▸ hid0
  · rw [hM]
    exact h

theorem le_maxIdOf {items : List InventoryItem} :
    ∀ it ∈ items, it.id ≤ maxIdOf items := by
  intro it hit
  exact (le_foldl_max (items.map (fun j => j.id)) 0).2 _ (List.mem_map_of_mem _ hit)

/-- One interactive store operation, as dispatched by the menu loop. -/
inductive Op where
  | addOp (item : Option InventoryItem) (ioOk : Bool)
  | updateOp (id amount : Int) (ioOk : Bool)
  | removeOp (id : Int) (ioOk : Bool)
  | nextIdOp
deriving Repr

/-- Apply one operation, returning the new state and the emitted
`getNextId` output, if any. -/
def applyOp (sys : InventorySystem) : Op → InventorySystem × Option Int
  | .addOp item ioOk => ((addItem sys item ioOk).2, none)
  | .updateOp id amount ioOk => ((updateStock sys id amount ioOk).2, none)
  | .removeOp id ioOk => ((removeItem sys id ioOk).2, none)
  | .nextIdOp => ((getNextId sys).2, some (getNextId sys).1)

/-- The sequence of `getNextId` outputs produced by a sequence of
operations. -/
def runOps (sys : InventorySystem) : List Op → List Int
  | [] => []
  | op :: ops =>
    match applyOp sys op with
    | (sys', some v) => v :: runOps sys' ops
    | (sys', none) => runOps sys' ops

theorem nextId_le_applyOp (sys : InventorySystem) (op : Op) :
    sys.nextId ≤ (applyOp sys op).1.nextId := by
  cases op with
  | addOp item ioOk =>
    cases item with
    | none => exact le_rfl
    | some it =>
      simp only [applyOp, addItem]
      by_cases h : (findItemById sys.inventory it.id).isSome
      · rw [if_pos h]
      · rw [if_neg h]
  | updateOp id amount ioOk =>
    simp only [applyOp, updateStock]
    cases findItemById sys.inventory id with
    | none => exact le_rfl
    | some item =>
      by_cases h : item.quantity + amount < 0
      · simp [if_pos h]
      · simp [if_neg h]
  | removeOp id ioOk =>
    simp only [applyOp, removeItem]
    cases removeById sys.inventory id with
    | none => exact le_rfl
    | some p => exact le_rfl
  | nextIdOp => simp [applyOp, getNextId]

theorem runOps_lower : ∀ (ops : List Op) (sys : InventorySystem),
    ∀ v ∈ runOps sys ops, sys.nextId ≤ v := by
  intro ops
  induction ops with
  | nil => intro sys v hv; simp [runOps] at hv
  | cons op ops ih =>
    intro sys v hv
    have hle := nextId_le_applyOp sys op
    cases hop : op with
    | nextIdOp =>
      rw [hop] at hv
      simp only [runOps, applyOp] at hv
      rcases List.mem_cons.mp hv with h | h
      · rw [h]
        simp [getNextId]
      · have := ih _ _ h
        simp only [getNextId] at this
        omega
    | addOp item ioOk =>
      rw [hop] at hv hle
      simp only [runOps, applyOp] at hv hle
      exact le_trans hle (ih _ _ hv)
    | updateOp id amount ioOk =>
      rw [hop] at hv hle
      simp only [runOps, applyOp] at hv hle
      exact le_trans hle (ih _ _ hv)
    | removeOp id ioOk =>
      rw [hop] at hv hle
      simp only [runOps, applyOp] at hv hle
      exact le_trans hle (ih _ _ hv)

theorem runOps_pairwise : ∀ (ops : List Op) (sys : InventorySystem),
    (runOps sys ops).Pairwise (· < ·) := by
  intro ops
  induction ops with
  | nil => intro sys; simp [runOps]
  | cons op ops ih =>
    intro sys
    cases hop : op with
    | nextIdOp =>
      simp only [runOps, applyOp]
      refine List.Pairwise.cons ?_ (ih _)
      intro v hv
      have := runOps_lower ops _ v hv
      simp only [getNextId] at this ⊢
      omega
    | addOp item ioOk => simp only [runOps, applyOp]; exact ih _
    | updateOp id amount ioOk => simp only [runOps, applyOp]; exact ih _
    | removeOp id ioOk => simp only [runOps, applyOp]; exact ih _

end Baseline

namespace Baseline

open StrUtil

/-- Whether a raw line passes the numeric parses of the load loop: lines
with fewer than 5 tokens always do (they are skipped before any parse);
otherwise the `id`, `price` and `quantity` tokens must each start with a
number. -/
def lineOk (line : String) : Bool :=
  match splitAtCommas line.data with
  | t0 :: _ :: _ :: t3 :: t4 :: _ =>
    (cppStoi t0).isSome && (cppStod t3).isSome && (cppStoi t4).isSome
  | _ => true

/-- The record a well-formed line contributes to the store: at least 5
tokens, numeric `id`/`price`/`quantity` and a known kind tag, decoded with
the placeholder payload the loader substitutes. -/
def lineRecord (line : String) : Option InventoryItem :=
  match splitAtCommas line.data with
  | t0 :: t1 :: t2 :: t3 :: t4 :: _ =>
    match cppStoi t0, cppStod t3, cppStoi t4 with
    | some id, some price, some quantity =>
      if t1 = "Electronics".data then
        some (mkElectronics id ⟨t2⟩ price quantity "Brand" 12)
      else if t1 = "Grocery".data then
        some (mkGrocery id ⟨t2⟩ price quantity "2024-12-31" "Category")
      else none
    | _, _, _ => none
  | _ => none

/-- Counter update contributed by one line. -/
def lineCtr (acc : Int) (line : String) : Int :=
  match splitAtCommas line.data with
  | t0 :: _ :: _ :: _ :: _ :: _ =>
    match cppStoi t0 with
    | some id => if id ≥ acc then id + 1 else acc
    | none => acc
  | _ => acc

/-- Whether a line lies in the fragment on which the load model is a
faithful image of `loadFromFile`: it is a genuine `getline` line (no
embedded newline) and, when it has at least 5 tokens, its price token is
in the modelled `std::stod` fragment (`StrUtil.stodModelled`: no
exponent/hex continuation, no infinity/NaN form, value inside the finite
`double` range).  The id and quantity tokens need no side condition:
`cppStoi` models `std::stoi` exactly on base-10 input, including the
`std::out_of_range` throw. -/
def lineModelled (line : String) : Bool :=
  line.data.all (fun c => c != '\n')
    && match splitAtCommas line.data with
       | _ :: _ :: _ :: t3 :: _ :: _ => stodModelled t3
       | _ => true

theorem loadLine_of_lineOk {line : String} (h : lineOk line = true)
    (st : List InventoryItem × Int) :
    loadLine st line = .ok (st.1 ++ (lineRecord line).toList, lineCtr st.2 line) := by
  rw [lineOk] at h
  rw [loadLine, lineRecord, lineCtr]
  cases htok : splitAtCommas line.data with
  | nil => simp
  | cons t0 rest0 =>
    rw [htok] at h
    cases rest0 with
    | nil => simp
    | cons t1 rest1 =>
      cases rest1 with
      | nil => simp
      | cons t2 rest2 =>
        cases rest2 with
        | nil => simp
        | cons t3 rest3 =>
          cases rest3 with
          | nil => simp
          | cons t4 rest4 =>
            simp only [Bool.and_eq_true] at h
            obtain ⟨⟨h0, h3⟩, h4⟩ := h
            obtain ⟨id0, hid0⟩ := Option.isSome_iff_exists.mp h0
            obtain ⟨p3, hp3⟩ := Option.isSome_iff_exists.mp h3
            obtain ⟨q4, hq4⟩ := Option.isSome_iff_exists.mp h4
            simp only [hid0, hp3, hq4]
            by_cases he : t1 = ("Electronics" : String).data
            · simp [he]
            · by_cases hg : t1 = ("Grocery" : String).data
              · simp [he, hg]
              · simp [he, hg]

theorem loadLine_of_not_lineOk {line : String} (h : lineOk line = false)
    (st : List InventoryItem × Int) :
    ∃ e, loadLine st line = .error e := by
  rw [lineOk] at h
  rw [loadLine]
  cases htok : splitAtCommas line.data with
  | nil => rw [htok] at h; simp at h
  | cons t0 rest0 =>
    rw [htok] at h
    cases rest0 with
    | nil => simp at h
    | cons t1 rest1 =>
      cases rest1 with
      | nil => simp at h
      | cons t2 rest2 =>
        cases rest2 with
        | nil => simp at h
        | cons t3 rest3 =>
          cases rest3 with
          | nil => simp at h
          | cons t4 rest4 =>
            cases h0 : cppStoi t0 with
            | none => exact ⟨"stoi", by simp [h0]⟩
            | some id =>
              cases h3 : cppStod t3 with
              | none => exact ⟨"stod", by simp [h0, h3]⟩
              | some p =>
                cases h4 : cppStoi t4 with
                | none => exact ⟨"stoi", by simp [h0, h3, h4]⟩
                | some q =>
                  exfalso
                  simp [h0, h3, h4] at h

theorem loadLines_of_all_ok : ∀ (lines : List String),
    (∀ l ∈ lines, lineOk l = true) →
    ∀ st : List InventoryItem × Int,
    ∃ ctr, loadLines lines st = .ok (st.1 ++ lines.filterMap lineRecord, ctr) := by
  intro lines
  induction lines with
  | nil => intro _ st; exact ⟨st.2, by simp [loadLines]⟩
  | cons l ls ih =>
    intro h st
    have hl := h l (List.mem_cons_self _ _)
    have hls := fun x hx => h x (List.mem_cons_of_mem _ hx)
    obtain ⟨ctr, hctr⟩ :=
      ih hls (st.1 ++ (lineRecord l).toList, lineCtr st.2 l)
    refine ⟨ctr, ?_⟩
    simp only [loadLines, loadLine_of_lineOk hl st]
    rw [hctr]
    cases hr : lineRecord l with
    | none => simp [List.filterMap_cons, hr]
    | some it => simp [List.filterMap_cons, hr]

theorem loadLines_of_some_bad : ∀ (lines : List String),
    (∃ l ∈ lines, lineOk l = false) →
    ∀ st : List InventoryItem × Int,
    ∃ e, loadLines lines st = .error e := by
  intro lines
  induction lines with
  | nil => rintro ⟨l, hl, _⟩; simp at hl
  | cons l ls ih =>
    rintro ⟨l0, hl0, hbad⟩ st
    by_cases hl : lineOk l = true
    · rcases List.mem_cons.mp hl0 with h | h
      · rw [h] at hbad
        rw [hl] at hbad
        exact absurd hbad (by simp)
      · obtain ⟨e, he⟩ := ih ⟨l0, h, hbad⟩ (st.1 ++ (lineRecord l).toList, lineCtr st.2 l)
        refine ⟨e, ?_⟩
        simp only [loadLines, loadLine_of_lineOk hl st]
        exact he
    · have hfalse : lineOk l = false := by
        cases hcase : lineOk l with
        | false => rfl
        | true => exact absurd hcase hl
      obtain ⟨e, he⟩ := loadLine_of_not_lineOk hfalse st
      refine ⟨e, ?_⟩
      simp only [loadLines, he]

end Baseline

namespace Baseline

open StrUtil

theorem lowStockLoop_eq (threshold : Int) : ∀ items : List InventoryItem,
    lowStockLoop threshold items
      = (items.filter (fun it => decide (it.quantity < threshold)),
         !(items.filter (fun it => decide (it.quantity < threshold))).isEmpty) := by
  intro items
  induction items with
  | nil => rfl
  | cons it rest ih =>
    by_cases hq : it.quantity < threshold
    · simp only [lowStockLoop, ih, List.filter_cons, decide_eq_true hq, if_pos hq]
      simp [hq]
    · simp only [lowStockLoop, ih, List.filter_cons, if_neg hq]
      simp [hq]

end Baseline

namespace Claims

open StrUtil Baseline

/-- C1 (counterexample): the claimed payload round-trip fails on the code.
Saving a store holding an Electronics record with brand `"Sony"` and
warranty 24 writes the byte stream `"1,Electronics,TV,10,2,Sony,24\n"`,
and re-loading it through `getline` yields a record whose payload is the
placeholder `brand = "Brand"`, `warrantyMonths = 12`, not the persisted
values. -/
theorem c1_roundtrip_counterexample :
    saveToFileContents ⟨[mkElectronics 1 "TV" 10 2 "Sony" 24], 1⟩
      = ("1,Electronics,TV,10,2,Sony,24\n" : String).data
    ∧ loadFromFile (getlineSplit
        (saveToFileContents ⟨[mkElectronics 1 "TV" 10 2 "Sony" 24], 1⟩))
      = .ok ([mkElectronics 1 "TV" 10 2 "Brand" 12], 2)
    ∧ (mkElectronics 1 "TV" 10 2 "Sony" 24).details
        = ItemDetails.electronics "Sony" 24
    ∧ (mkElectronics 1 "TV" 10 2 "Brand" 12).details
        = ItemDetails.electronics "Brand" 12
    ∧ ItemDetails.electronics "Brand" 12 ≠ ItemDetails.electronics "Sony" 24 := by
  decide

/-- C1 (amended): save-then-load reconstructs each record's id, kind,
name, price and quantity, but replaces the kind-specific payload with
fixed placeholders (`"Brand"`/12 for Electronics, `"2024-12-31"`/
`"Category"` for Grocery); the loader never reads the persisted payload
tokens.  Stated on the `persistFaithful` fragment — names free of commas
and newlines, payload tokens free of newlines, integral prices of
magnitude below `10^6`, ids and quantities in `int` range — on which the
textual codec is faithfully invertible (outside it the round-trip can
degrade further: prices from `10^6` print in rounded scientific form,
newlines split a record across physical lines). -/
theorem c1_roundtrip_placeholders (items : List InventoryItem)
    (h : ∀ it ∈ items, persistFaithful it) :
    loadFromFile (getlineSplit (saveToFileContents ⟨items, 1⟩))
      = .ok (items.map placeholderItem, ctrFold 1 (items.map (fun it => it.id)))
    ∧ ∀ it ∈ items,
        (placeholderItem it).id = it.id
        ∧ (placeholderItem it).name = it.name
        ∧ (placeholderItem it).price = it.price
        ∧ (placeholderItem it).quantity = it.quantity
        ∧ getType (placeholderItem it) = getType it
        ∧ (∀ b w, it.details = .electronics b w →
            (placeholderItem it).details = .electronics "Brand" 12)
        ∧ (∀ e c, it.details = .grocery e c →
            (placeholderItem it).details = .grocery "2024-12-31" "Category") := by
  constructor
  · rw [getlineSplit_saveToFileContents _
      (fun it hit => encodeItem_no_newline (h it hit))]
    show loadLines (items.map encodeItem) ([], 1) = _
    rw [loadLines_encodeItems items h ([], 1)]
    simp
  · intro it hit
    cases hdet : it.details with
    | electronics b w =>
      refine ⟨?_, ?_, ?_, ?_, ?_, ?_, ?_⟩
      all_goals simp [placeholderItem, hdet, mkElectronics, mkGrocery, getType]
    | grocery e c =>
      have hval : isValidDate "2024-12-31" = true := by decide
      refine ⟨?_, ?_, ?_, ?_, ?_, ?_, ?_⟩
      all_goals simp [placeholderItem, hdet, mkElectronics, mkGrocery, getType, hval]

/-- C1 witness: a concrete Grocery store in the faithful fragment. -/
theorem c1_roundtrip_placeholders_witness :
    (∀ it ∈ [mkGrocery 3 "Milk" 5 7 "2025-01-01" "Dairy"], persistFaithful it)
    ∧ (loadFromFile (getlineSplit
          (saveToFileContents ⟨[mkGrocery 3 "Milk" 5 7 "2025-01-01" "Dairy"], 1⟩))
        = .ok ([mkGrocery 3 "Milk" 5 7 "2025-01-01" "Dairy"].map placeholderItem,
               ctrFold 1 ([mkGrocery 3 "Milk" 5 7 "2025-01-01" "Dairy"].map
                 (fun it => it.id)))) :=
  ⟨by decide,
   (c1_roundtrip_placeholders [mkGrocery 3 "Milk" 5 7 "2025-01-01" "Dairy"]
     (by decide)).1⟩

/-- C2 (counterexample): a file whose second line has five tokens but a
non-numeric id does not yield the store of the well-formed first line —
loading aborts with the (uncaught) `std::invalid_argument` from `stoi`,
contradicting the claim that no malformed line aborts loading.  Both
lines lie in the modelled fragment (`lineModelled`). -/
theorem c2_load_counterexample :
    loadFromFile ["1,Electronics,TV,10,2,Sony,12", "abc,Grocery,Y,1,1"]
      = .error "stoi"
    ∧ (∀ l ∈ ["1,Electronics,TV,10,2,Sony,12", "abc,Grocery,Y,1,1"],
        lineModelled l = true)
    ∧ (loadFromFile ["1,Electronics,TV,10,2,Sony,12", "abc,Grocery,Y,1,1"]).isOk
        = false
    ∧ lineOk "abc,Grocery,Y,1,1" = false := by
  decide

/-- C2 (amended): over files in the modelled fragment (`lineModelled`:
genuine `getline` lines whose price token, when the line has 5 or more
tokens, is plain decimal inside `double` range — exponent, hexadecimal,
infinity and NaN tokens are outside the embedding), loading skips lines
with fewer than 5 comma-separated tokens and lines with an unknown kind
tag, continuing with subsequent lines and yielding exactly the records of
the well-formed lines; but any line with at least 5 tokens whose id,
price or quantity token has no digits — or whose id or quantity exceeds
the `int` range — raises an exception (`std::invalid_argument` /
`std::out_of_range`) out of `loadFromFile`, aborting loading. -/
theorem c2_load_tolerance (lines : List String)
    (_hmod : ∀ l ∈ lines, lineModelled l = true) :
    ((∀ l ∈ lines, lineOk l = true) →
       ∃ ctr, loadFromFile lines = .ok (lines.filterMap lineRecord, ctr))
    ∧ ((∃ l ∈ lines, lineOk l = false) →
       ∃ e, loadFromFile lines = .error e) := by
  constructor
  · intro h
    obtain ⟨ctr, hctr⟩ := loadLines_of_all_ok lines h ([], 1)
    refine ⟨ctr, ?_⟩
    show loadLines lines ([], 1) = _
    rw [hctr]
    simp
  · intro h
    exact loadLines_of_some_bad lines h ([], 1)

/-- C2 witness: the spec's load-tolerance example — one well-formed line
and one line with only three comma-separated fields yields exactly the
record of the well-formed line. -/
theorem c2_load_tolerance_witness :
    (∀ l ∈ ["5,Electronics,TV,10,2,Sony,12", "a,b,c"], lineModelled l = true)
    ∧ (∀ l ∈ ["5,Electronics,TV,10,2,Sony,12", "a,b,c"], lineOk l = true)
    ∧ (∃ ctr, loadFromFile ["5,Electronics,TV,10,2,Sony,12", "a,b,c"]
        = .ok (["5,Electronics,TV,10,2,Sony,12", "a,b,c"].filterMap lineRecord,
               ctr)) :=
  ⟨by decide, by decide,
   (c2_load_tolerance ["5,Electronics,TV,10,2,Sony,12", "a,b,c"] (by decide)).1
    (by decide)⟩

/-- C3: across any sequence of store operations the outputs of
`getNextId` are strictly increasing (the counter is never decremented or
reset), and re-loading a persisted store (non-negative ids, at least one
record, inside the faithful persistence fragment `persistFaithful`)
leaves the counter at one more than the maximum identifier among the
loaded records. -/
theorem c3_monotonic_ids :
    (∀ (sys : InventorySystem) (ops : List Op), (runOps sys ops).Pairwise (· < ·))
    ∧ (∀ items : List InventoryItem, items ≠ [] →
        (∀ it ∈ items, 0 ≤ it.id ∧ persistFaithful it) →
        loadFromFile (getlineSplit (saveToFileContents ⟨items, 1⟩))
            = .ok (items.map placeholderItem, maxIdOf items + 1)
          ∧ maxIdOf items ∈ items.map (fun it => it.id)
          ∧ (∀ it ∈ items, it.id ≤ maxIdOf items)
          ∧ (∀ it ∈ items, (placeholderItem it).id = it.id)) := by
  constructor
  · intro sys ops
    exact runOps_pairwise ops sys
  · intro items hne h
    have h' : ∀ it ∈ items, persistFaithful it := fun it hit => (h it hit).2
    refine ⟨?_, maxIdOf_mem hne (fun it hit => (h it hit).1), le_maxIdOf, ?_⟩
    · rw [getlineSplit_saveToFileContents _
        (fun it hit => encodeItem_no_newline (h' it hit))]
      show loadLines (items.map encodeItem) ([], 1) = _
      rw [loadLines_encodeItems items h' ([], 1), ctrFold_one]
      simp [maxIdOf]
    · intro it hit
      cases hdet : it.details with
      | electronics b w => simp [placeholderItem, hdet, mkElectronics]
      | grocery e c => simp [placeholderItem, hdet, mkGrocery]

/-- C3 witness: two `getNextId` calls interleaved with an add emit
strictly increasing ids, and reloading a one-record store with id 2 sets
the counter to 3. -/
theorem c3_monotonic_ids_witness :
    (runOps ⟨[], 1⟩ [Op.nextIdOp, Op.addOp none true, Op.nextIdOp]).Pairwise (· < ·)
    ∧ ([mkElectronics 2 "TV" 10 1 "Sony" 6] ≠ []
       ∧ loadFromFile (getlineSplit
            (saveToFileContents ⟨[mkElectronics 2 "TV" 10 1 "Sony" 6], 1⟩))
          = .ok ([mkElectronics 2 "TV" 10 1 "Sony" 6].map placeholderItem,
                 maxIdOf [mkElectronics 2 "TV" 10 1 "Sony" 6] + 1)) :=
  ⟨c3_monotonic_ids.1 ⟨[], 1⟩ [Op.nextIdOp, Op.addOp none true, Op.nextIdOp],
   ⟨by decide,
    (c3_monotonic_ids.2 [mkElectronics 2 "TV" 10 1 "Sony" 6] (by decide)
      (by decide)).1⟩⟩

/-- C4: `updateStock` on a present id with quantity `q`: when `q + d < 0`
the operation is rejected with `wouldGoNegative` (distinct from
`notFound`) and the store — in particular the record's quantity — is left
exactly unchanged; when `q + d ≥ 0` the delta is applied and the record's
quantity becomes `q + d`, all other records unchanged. -/
theorem c4_update_stock_strict (sys : InventorySystem) (id amount : Int)
    (ioOk : Bool) (pre post : List InventoryItem) (it : InventoryItem)
    (hinv : sys.inventory = pre ++ it :: post)
    (hpre : ∀ j ∈ pre, j.id ≠ id) (hit : it.id = id) :
    (it.quantity + amount < 0 →
       updateStock sys id amount ioOk = (UpdateResult.wouldGoNegative, sys))
    ∧ (0 ≤ it.quantity + amount →
       updateStock sys id amount ioOk
         = (UpdateResult.applied ioOk (it.quantity + amount),
            { sys with
               inventory := pre ++ { it with quantity := it.quantity + amount } :: post }))
    ∧ UpdateResult.wouldGoNegative ≠ UpdateResult.notFound := by
  have hfind : findItemById sys.inventory id = some it := by
    rw [hinv]
    exact findItemById_of_decomp hpre hit
  refine ⟨?_, ?_, by simp⟩
  · intro hneg
    simp [updateStock, hfind, hneg]
  · intro hpos
    have hnneg : ¬ it.quantity + amount < 0 := by omega
    simp only [updateStock, hfind, if_neg hnneg]
    rw [hinv, applyToFirst_of_decomp _ hpre hit]

/-- C4 witness: boundary deltas on a record with quantity 2 — delta −3 is
rejected leaving the store unchanged, delta −2 brings the quantity to
exactly 0. -/
theorem c4_update_stock_strict_witness :
    (updateStock ⟨[⟨1, "Pen", 2, 2, ItemDetails.grocery "2024-01-01" "Stationery"⟩], 5⟩
        1 (-3) true
      = (UpdateResult.wouldGoNegative,
         ⟨[⟨1, "Pen", 2, 2, ItemDetails.grocery "2024-01-01" "Stationery"⟩], 5⟩))
    ∧ (updateStock ⟨[⟨1, "Pen", 2, 2, ItemDetails.grocery "2024-01-01" "Stationery"⟩], 5⟩
        1 (-2) true
      = (UpdateResult.applied true 0,
         ⟨[⟨1, "Pen", 2, 0, ItemDetails.grocery "2024-01-01" "Stationery"⟩], 5⟩)) := by
  constructor
  · exact (c4_update_stock_strict _ 1 (-3) true [] []
      ⟨1, "Pen", 2, 2, ItemDetails.grocery "2024-01-01" "Stationery"⟩
      rfl (by simp) rfl).1 (by decide)
  · have h := (c4_update_stock_strict
      ⟨[⟨1, "Pen", 2, 2, ItemDetails.grocery "2024-01-01" "Stationery"⟩], 5⟩
      1 (-2) true [] []
      ⟨1, "Pen", 2, 2, ItemDetails.grocery "2024-01-01" "Stationery"⟩
      rfl (by simp) rfl).2.1 (by decide)
    exact h

end Claims

namespace Claims

open StrUtil Baseline

/-- C5: `addItem` of a null record returns an error and leaves the store
unchanged; a record whose id already exists yields `duplicateId` (the
candidate is discarded, the sequence unchanged); a non-null record with a
fresh id is appended at the end of the ordered sequence. -/
theorem c5_add_item (sys : InventorySystem) (ioOk : Bool) :
    addItem sys none ioOk = (AddResult.nullItem, sys)
    ∧ (∀ item : InventoryItem,
        ((∃ j ∈ sys.inventory, j.id = item.id) →
           addItem sys (some item) ioOk = (AddResult.duplicateId, sys))
        ∧ ((∀ j ∈ sys.inventory, j.id ≠ item.id) →
           addItem sys (some item) ioOk
             = (AddResult.saved ioOk,
                { sys with inventory := sys.inventory ++ [item] })))
    ∧ AddResult.duplicateId ≠ AddResult.nullItem
    ∧ AddResult.duplicateId ≠ AddResult.saved ioOk := by
  refine ⟨rfl, ?_, by simp, by simp⟩
  intro item
  constructor
  · intro hdup
    have hsome : (findItemById sys.inventory item.id).isSome = true :=
      (findItemById_isSome_iff _ _).mpr hdup
    simp [addItem, hsome]
  · intro hfresh
    have hnone : findItemById sys.inventory item.id = none :=
      findItemById_of_none hfresh
    simp [addItem, hnone]

/-- C5 witness: on a one-record store, re-adding id 1 is rejected without
mutation, a null add is rejected, and a fresh id 2 is appended at the
end. -/
theorem c5_add_item_witness :
    addItem ⟨[⟨1, "A", 1, 1, ItemDetails.electronics "X" 1⟩], 2⟩ none true
      = (AddResult.nullItem, ⟨[⟨1, "A", 1, 1, ItemDetails.electronics "X" 1⟩], 2⟩)
    ∧ addItem ⟨[⟨1, "A", 1, 1, ItemDetails.electronics "X" 1⟩], 2⟩
        (some ⟨1, "B", 2, 2, ItemDetails.electronics "Y" 2⟩) true
      = (AddResult.duplicateId, ⟨[⟨1, "A", 1, 1, ItemDetails.electronics "X" 1⟩], 2⟩)
    ∧ addItem ⟨[⟨1, "A", 1, 1, ItemDetails.electronics "X" 1⟩], 2⟩
        (some ⟨2, "B", 2, 2, ItemDetails.electronics "Y" 2⟩) true
      = (AddResult.saved true,
         ⟨[⟨1, "A", 1, 1, ItemDetails.electronics "X" 1⟩,
           ⟨2, "B", 2, 2, ItemDetails.electronics "Y" 2⟩], 2⟩) := by
  refine ⟨(c5_add_item ⟨[⟨1, "A", 1, 1, ItemDetails.electronics "X" 1⟩], 2⟩ true).1,
    ((c5_add_item ⟨[⟨1, "A", 1, 1, ItemDetails.electronics "X" 1⟩], 2⟩ true).2.1
      ⟨1, "B", 2, 2, ItemDetails.electronics "Y" 2⟩).1 (by decide), ?_⟩
  have h := ((c5_add_item ⟨[⟨1, "A", 1, 1, ItemDetails.electronics "X" 1⟩], 2⟩ true).2.1
      ⟨2, "B", 2, 2, ItemDetails.electronics "Y" 2⟩).2 (by decide)
  exact h

/-- C6: when the persistence rewrite after a successful add fails
(`ioOk = false`, the oracle for `saveToFile`), the freshly added record
nonetheless remains in the in-memory store — the add is not rolled
back. -/
theorem c6_add_not_rolled_back (sys : InventorySystem) (item : InventoryItem)
    (hfresh : ∀ j ∈ sys.inventory, j.id ≠ item.id) :
    (addItem sys (some item) false).1 = AddResult.saved false
    ∧ (addItem sys (some item) false).2.inventory = sys.inventory ++ [item]
    ∧ item ∈ (addItem sys (some item) false).2.inventory := by
  have hnone : findItemById sys.inventory item.id = none :=
    findItemById_of_none hfresh
  refine ⟨?_, ?_, ?_⟩ <;> simp [addItem, hnone]

/-- C6 witness: a concrete add whose persistence fails still leaves the
record in the store. -/
theorem c6_add_not_rolled_back_witness :
    (addItem ⟨[], 1⟩ (some ⟨1, "A", 1, 1, ItemDetails.electronics "X" 1⟩) false).1
      = AddResult.saved false
    ∧ (addItem ⟨[], 1⟩ (some ⟨1, "A", 1, 1, ItemDetails.electronics "X" 1⟩) false).2.inventory
      = [] ++ [⟨1, "A", 1, 1, ItemDetails.electronics "X" 1⟩]
    ∧ ⟨1, "A", 1, 1, ItemDetails.electronics "X" 1⟩
        ∈ (addItem ⟨[], 1⟩ (some ⟨1, "A", 1, 1, ItemDetails.electronics "X" 1⟩) false).2.inventory :=
  c6_add_not_rolled_back ⟨[], 1⟩ ⟨1, "A", 1, 1, ItemDetails.electronics "X" 1⟩
    (by simp)

/-- C7: `removeItem` of an absent id returns `notFound` and leaves the
sequence (length and contents) exactly unchanged; of a present id it
deletes the first matching record, preserving the relative order of the
remainder. -/
theorem c7_remove_item (sys : InventorySystem) (id : Int) (ioOk : Bool) :
    ((∀ j ∈ sys.inventory, j.id ≠ id) →
       removeItem sys id ioOk = (RemoveResult.notFound, sys))
    ∧ (∀ (pre post : List InventoryItem) (it : InventoryItem),
        sys.inventory = pre ++ it :: post →
        (∀ j ∈ pre, j.id ≠ id) → it.id = id →
        removeItem sys id ioOk
          = (RemoveResult.removed ioOk it.name,
             { sys with inventory := pre ++ post })) := by
  constructor
  · intro h
    simp [removeItem, removeById_of_none h]
  · intro pre post it hinv hpre hit
    have hrid : removeById sys.inventory id = some (it.name, pre ++ post) := by
      rw [hinv]
      exact removeById_of_decomp hpre hit
    simp [removeItem, hrid]

/-- C7 witness: removing id 9 from a two-record store without it is a
no-op returning `notFound`; removing id 1 deletes the first record and
keeps the second in place. -/
theorem c7_remove_item_witness :
    removeItem ⟨[⟨1, "A", 1, 1, ItemDetails.electronics "X" 1⟩,
                 ⟨2, "B", 2, 2, ItemDetails.electronics "Y" 2⟩], 3⟩ 9 true
      = (RemoveResult.notFound,
         ⟨[⟨1, "A", 1, 1, ItemDetails.electronics "X" 1⟩,
           ⟨2, "B", 2, 2, ItemDetails.electronics "Y" 2⟩], 3⟩)
    ∧ removeItem ⟨[⟨1, "A", 1, 1, ItemDetails.electronics "X" 1⟩,
                   ⟨2, "B", 2, 2, ItemDetails.electronics "Y" 2⟩], 3⟩ 1 true
      = (RemoveResult.removed true "A",
         ⟨[] ++ [⟨2, "B", 2, 2, ItemDetails.electronics "Y" 2⟩], 3⟩) := by
  constructor
  · exact (c7_remove_item ⟨[⟨1, "A", 1, 1, ItemDetails.electronics "X" 1⟩,
      ⟨2, "B", 2, 2, ItemDetails.electronics "Y" 2⟩], 3⟩ 9 true).1 (by decide)
  · exact (c7_remove_item ⟨[⟨1, "A", 1, 1, ItemDetails.electronics "X" 1⟩,
      ⟨2, "B", 2, 2, ItemDetails.electronics "Y" 2⟩], 3⟩ 1 true).2 []
      [⟨2, "B", 2, 2, ItemDetails.electronics "Y" 2⟩]
      ⟨1, "A", 1, 1, ItemDetails.electronics "X" 1⟩ rfl (by simp) rfl

/-- C9: the low-stock report selects, in store order, exactly the records
with quantity strictly below the threshold (default 5); at threshold 5 a
record with quantity 5 is excluded and one with quantity 4 is included. -/
theorem c9_low_stock_report (sys : InventorySystem) (threshold : Int) :
    (generateLowStockReport sys threshold).1
        = sys.inventory.filter (fun it => decide (it.quantity < threshold))
    ∧ ((generateLowStockReport sys threshold).2 = true
        ↔ ∃ it ∈ sys.inventory, it.quantity < threshold)
    ∧ (∀ it ∈ sys.inventory, it.quantity = 5 →
        it ∉ (generateLowStockReport sys 5).1)
    ∧ (∀ it ∈ sys.inventory, it.quantity = 4 →
        it ∈ (generateLowStockReport sys 5).1) := by
  have heq := lowStockLoop_eq threshold sys.inventory
  have heq5 := lowStockLoop_eq 5 sys.inventory
  refine ⟨?_, ?_, ?_, ?_⟩
  · show (lowStockLoop threshold sys.inventory).1 = _
    rw [heq]
  · show (lowStockLoop threshold sys.inventory).2 = true ↔ _
    rw [heq]
    simp only [Bool.not_eq_true']
    constructor
    · intro h
      by_contra hno
      push_neg at hno
      have : sys.inventory.filter (fun it => decide (it.quantity < threshold)) = [] := by
        apply List.filter_eq_nil_iff.mpr
        intro a ha
        simp [hno a ha]
      rw [this] at h
      simp at h
    · rintro ⟨it, hit, hlt⟩
      have hmem : it ∈ sys.inventory.filter (fun j => decide (j.quantity < threshold)) :=
        List.mem_filter.mpr ⟨hit, by simp [hlt]⟩
      cases hfe : sys.inventory.filter (fun j => decide (j.quantity < threshold)) with
      | nil => rw [hfe] at hmem; simp at hmem
      | cons x xs => rfl
  · intro it hit hq
    show it ∉ (lowStockLoop 5 sys.inventory).1
    rw [heq5]
    intro hmem
    have := (List.mem_filter.mp hmem).2
    rw [hq] at this
    simp at this
  · intro it hit hq
    show it ∈ (lowStockLoop 5 sys.inventory).1
    rw [heq5]
    exact List.mem_filter.mpr ⟨hit, by simp [hq]⟩

/-- C9 witness: with threshold 5, a record with quantity 5 is excluded
and one with quantity 4 is included in the report. -/
theorem c9_low_stock_report_witness :
    ⟨1, "A", 1, 5, ItemDetails.electronics "X" 1⟩
      ∉ (generateLowStockReport
          ⟨[⟨1, "A", 1, 5, ItemDetails.electronics "X" 1⟩,
            ⟨2, "B", 2, 4, ItemDetails.electronics "Y" 2⟩], 3⟩ 5).1
    ∧ ⟨2, "B", 2, 4, ItemDetails.electronics "Y" 2⟩
      ∈ (generateLowStockReport
          ⟨[⟨1, "A", 1, 5, ItemDetails.electronics "X" 1⟩,
            ⟨2, "B", 2, 4, ItemDetails.electronics "Y" 2⟩], 3⟩ 5).1 :=
  ⟨(c9_low_stock_report ⟨[⟨1, "A", 1, 5, ItemDetails.electronics "X" 1⟩,
      ⟨2, "B", 2, 4, ItemDetails.electronics "Y" 2⟩], 3⟩ 5).2.2.1
      ⟨1, "A", 1, 5, ItemDetails.electronics "X" 1⟩ (by simp) rfl,
   (c9_low_stock_report ⟨[⟨1, "A", 1, 5, ItemDetails.electronics "X" 1⟩,
      ⟨2, "B", 2, 4, ItemDetails.electronics "Y" 2⟩], 3⟩ 5).2.2.2
      ⟨2, "B", 2, 4, ItemDetails.electronics "Y" 2⟩ (by simp) rfl⟩

end Claims

namespace GenericInv

open StrUtil

/-- The `Item` struct of the generic variant: common fields plus a free
`category` (default `"General"`). -/
structure Item where
  id : Int
  name : String
  quantity : Int
  price : ℚ
  category : String
deriving DecidableEq, Repr

/-- `::tolower` restricted to ASCII, as applied by `std::transform`. -/
def lowerChar (c : Char) : Char :=
  if 'A' ≤ c ∧ c ≤ 'Z' then Char.ofNat (c.toNat + 32) else c

/-- Lower-casing of a character sequence. -/
def lowerList (cs : List Char) : List Char := cs.map lowerChar

/-- `std::string::find` reduced to its boolean outcome: whether `needle`
occurs as a contiguous substring (an empty needle is always found). -/
def strFind (needle : List Char) : List Char → Bool
  | [] => needle.isEmpty
  | c :: rest => needle.isPrefixOf (c :: rest) || strFind needle rest

/-- `Inventory::containsIgnoreCase`: lower-case both strings and test
substring containment. -/
def containsIgnoreCase (text searchTerm : String) : Bool :=
  strFind (lowerList searchTerm.data) (lowerList text.data)

theorem isPrefixOf_iff_exists : ∀ (p l : List Char),
    p.isPrefixOf l = true ↔ ∃ t, l = p ++ t := by
  intro p
  induction p with
  | nil =>
    intro l
    simp [List.isPrefixOf]
  | cons a as ih =>
    intro l
    cases l with
    | nil =>
      simp [List.isPrefixOf]
    | cons b bs =>
      simp only [List.isPrefixOf, Bool.and_eq_true, beq_iff_eq, ih bs]
      constructor
      · rintro ⟨hab, t, ht⟩
        exact ⟨t, by rw [hab, ht]; rfl⟩
      · rintro ⟨t, ht⟩
        rw [List.cons_append] at ht
        obtain ⟨h1, h2⟩ := List.cons.injEq .. ▸ ht
        exact ⟨h1.symm, t, h2⟩

theorem strFind_iff (needle : List Char) : ∀ hay : List Char,
    strFind needle hay = true ↔ ∃ pre post, hay = pre ++ needle ++ post := by
  intro hay
  induction hay with
  | nil =>
    simp only [strFind, List.isEmpty_iff]
    constructor
    · intro h
      exact ⟨[], [], by simp [h]⟩
    · rintro ⟨pre, post, h⟩
      rcases List.append_eq_nil.mp (List.append_eq_nil.mp h.symm).1 with ⟨-, h2⟩
      exact h2
  | cons c rest ih =>
    simp only [strFind, Bool.or_eq_true, isPrefixOf_iff_exists, ih]
    constructor
    · rintro (⟨t, ht⟩ | ⟨pre, post, h⟩)
      · exact ⟨[], t, by simp [ht]⟩
      · exact ⟨c :: pre, post, by simp [h]⟩
    · rintro ⟨pre, post, h⟩
      cases pre with
      | nil =>
        refine Or.inl ⟨post, ?_⟩
        simpa using h
      | cons p pre' =>
        refine Or.inr ⟨pre', post, ?_⟩
        rw [List.cons_append, List.cons_append] at h
        exact (List.cons.injEq .. ▸ h).2

theorem containsIgnoreCase_iff (text searchTerm : String) :
    containsIgnoreCase text searchTerm = true
      ↔ ∃ pre post, lowerList text.data = pre ++ lowerList searchTerm.data ++ post := by
  rw [containsIgnoreCase, strFind_iff]

end GenericInv

namespace GenericInv

open StrUtil

/-- The accumulation loop of `Inventory::searchItem`: an id match (only
attempted when the whole query is digits) is pushed and skips the text
checks; otherwise a case-insensitive match on name or category pushes the
item. -/
def searchLoop (isIdSearch : Bool) (searchTerm : String) : List Item → List Item
  | [] => []
  | it :: rest =>
    if isIdSearch && (intToString it.id == searchTerm) then
      it :: searchLoop isIdSearch searchTerm rest
    else if containsIgnoreCase it.name searchTerm
        || containsIgnoreCase it.category searchTerm then
      it :: searchLoop isIdSearch searchTerm rest
    else searchLoop isIdSearch searchTerm rest

/-- `Inventory::searchItem`: an empty query produces no matches;
otherwise the store is scanned in order with `searchLoop`. -/
def searchItem (searchTerm : String) (items : List Item) : List Item :=
  if searchTerm = "" then []
  else
    searchLoop (!(searchTerm == "") && searchTerm.data.all Char.isDigit)
      searchTerm items

/-- The match predicate the claim describes: exact decimal-id match, or
case-insensitive substring match on name or category. -/
def matchesQueryB (searchTerm : String) (it : Item) : Bool :=
  (intToString it.id == searchTerm)
  || containsIgnoreCase it.name searchTerm
  || containsIgnoreCase it.category searchTerm

theorem natToString_ne_empty (n : Nat) : ¬ natToString n = "" := by
  intro h
  have hdata : (natToString n).data = [] := by rw [h]
  rw [natToString_data] at hdata
  exact natBigDigits_ne_nil n (List.map_eq_nil_iff.mp hdata)

theorem isIdSearch_of_eq {id : Int} (h0 : 0 ≤ id) {term : String}
    (heq : intToString id = term) :
    (!(term == "") && term.data.all Char.isDigit) = true := by
  have hdata : intToString id = natToString id.toNat := by
    rw [intToString, if_neg (by omega)]
  rw [← heq, hdata]
  rw [Bool.and_eq_true]
  constructor
  · rw [Bool.not_eq_true']
    rw [beq_eq_false_iff_ne]
    exact natToString_ne_empty id.toNat
  · rw [List.all_eq_true]
    intro c hc
    rw [natToString_data] at hc
    obtain ⟨d, hd, rfl⟩ := List.mem_map.mp hc
    exact isDigit_digitChar (natBigDigits_lt hd)

theorem searchLoop_eq_filter (searchTerm : String) :
    ∀ items : List Item, (∀ it ∈ items, 0 ≤ it.id) →
    searchLoop (!(searchTerm == "") && searchTerm.data.all Char.isDigit)
        searchTerm items
      = items.filter (matchesQueryB searchTerm) := by
  intro items
  induction items with
  | nil => intro _; rfl
  | cons it rest ih =>
    intro h
    have h0 : 0 ≤ it.id := h it (List.mem_cons_self _ _)
    have hrest := fun j hj => h j (List.mem_cons_of_mem _ hj)
    by_cases hA : ((!(searchTerm == "") && searchTerm.data.all Char.isDigit)
        && (intToString it.id == searchTerm)) = true
    · have hmatch : matchesQueryB searchTerm it = true := by
        rw [matchesQueryB]
        rw [Bool.and_eq_true] at hA
        simp [hA.2]
      simp only [searchLoop, if_pos hA, List.filter_cons, hmatch, ih hrest]
      simp
    · by_cases hB : (containsIgnoreCase it.name searchTerm
          || containsIgnoreCase it.category searchTerm) = true
      · have hmatch : matchesQueryB searchTerm it = true := by
          rw [matchesQueryB, Bool.or_assoc]
          simp [hB]
        simp only [searchLoop, if_neg hA, if_pos hB, List.filter_cons, hmatch, ih hrest]
        simp
      · have hid : (intToString it.id == searchTerm) = false := by
          rw [beq_eq_false_iff_ne]
          intro heq
          rw [isIdSearch_of_eq h0 heq] at hA
          exact hA (by simp [heq])
        have hBC : (containsIgnoreCase it.name searchTerm
            || containsIgnoreCase it.category searchTerm) = false := by
          revert hB
          cases containsIgnoreCase it.name searchTerm
            || containsIgnoreCase it.category searchTerm <;> simp
        have hmatch : matchesQueryB searchTerm it = false := by
          rw [matchesQueryB, Bool.or_assoc, hid, hBC]
          rfl
        simp only [searchLoop, if_neg hA, if_neg hB, List.filter_cons, hmatch,
          ih hrest]
        simp

end GenericInv

namespace GenericInv

open StrUtil

/-- Update of the first item with a matching name: `existing->quantity += qty`. -/
def addToFirstByName (name : String) (qty : Int) : List Item → Option (List Item)
  | [] => none
  | it :: rest =>
    if it.name = name then some ({ it with quantity := it.quantity + qty } :: rest)
    else (addToFirstByName name qty rest).map (fun l => it :: l)

/-- The `Inventory` state of the generic variant: item list and id
counter (initially 1). -/
structure Inventory where
  items : List Item
  nextId : Int := 1
deriving DecidableEq, Repr

/-- `Inventory::addItem`: reject negative quantity or price; merge into
the first existing item with the same name (quantity only, no new id);
otherwise append a new item under a fresh id. -/
def addItem (inv : Inventory) (name : String) (qty : Int) (price : ℚ)
    (cat : String := "General") : Inventory :=
  if qty < 0 ∨ price < 0 then inv
  else
    match addToFirstByName name qty inv.items with
    | some items' => { inv with items := items' }
    | none =>
      { items := inv.items ++ [⟨inv.nextId, name, qty, price, cat⟩],
        nextId := inv.nextId + 1 }

theorem addToFirstByName_cons (name : String) (qty : Int) (it : Item)
    (rest : List Item) :
    addToFirstByName name qty (it :: rest)
      = if it.name = name then some ({ it with quantity := it.quantity + qty } :: rest)
        else (addToFirstByName name qty rest).map (fun l => it :: l) := rfl

theorem addToFirstByName_of_decomp {pre post : List Item} {it : Item}
    {name : String} (qty : Int)
    (hpre : ∀ j ∈ pre, j.name ≠ name) (hit : it.name = name) :
    addToFirstByName name qty (pre ++ it :: post)
      = some (pre ++ { it with quantity := it.quantity + qty } :: post) := by
  induction pre with
  | nil => simp [addToFirstByName_cons, hit]
  | cons p pre ih =>
    have hp : p.name ≠ name := hpre p (List.mem_cons_self _ _)
    rw [List.cons_append, addToFirstByName_cons, if_neg hp,
      ih (fun j hj => hpre j (List.mem_cons_of_mem _ hj)), Option.map_some']
    rfl

end GenericInv

namespace Claims

open StrUtil GenericInv

/-- C8: for stores with non-negative ids (every reachable store), a
non-empty query returns, in store order, exactly the items whose decimal
id equals the query or whose name or category contains the query
case-insensitively (`containsIgnoreCase` is proved equivalent to
substring containment of the lower-cased strings); the empty query
returns the empty result; distinct ids keep the result duplicate-free. -/
theorem c8_search_correct (searchTerm : String) (items : List Item)
    (h0 : ∀ it ∈ items, 0 ≤ it.id) :
    (searchTerm ≠ "" →
       searchItem searchTerm items = items.filter (matchesQueryB searchTerm))
    ∧ searchItem "" items = []
    ∧ (∀ text query : String,
        containsIgnoreCase text query = true
          ↔ ∃ pre post, lowerList text.data = pre ++ lowerList query.data ++ post)
    ∧ ((items.map (fun it => it.id)).Nodup →
        ((searchItem searchTerm items).map (fun it => it.id)).Nodup) := by
  refine ⟨?_, rfl, fun text query => containsIgnoreCase_iff text query, ?_⟩
  · intro hne
    rw [searchItem, if_neg hne]
    exact searchLoop_eq_filter searchTerm items h0
  · intro hnd
    by_cases hne : searchTerm = ""
    · subst hne
      simp [searchItem]
    · rw [searchItem, if_neg hne, searchLoop_eq_filter searchTerm items h0]
      have hsub := (List.filter_sublist (l := items) (p := matchesQueryB searchTerm)).map
        (fun it => it.id)
      exact hnd.sublist hsub

/-- C8 witness: the spec's example store — `search "lap"` finds only the
Laptop, `search "ACCESSORIES"` only the Mouse, `search ""` nothing, and
`search "1"` only id 1. -/
theorem c8_search_correct_witness :
    searchItem "lap"
        [⟨1, "Laptop", 5, 1299, "Electronics"⟩, ⟨2, "Mouse", 10, 29, "Accessories"⟩]
      = [⟨1, "Laptop", 5, 1299, "Electronics"⟩, ⟨2, "Mouse", 10, 29, "Accessories"⟩].filter
          (matchesQueryB "lap")
    ∧ searchItem ""
        [⟨1, "Laptop", 5, 1299, "Electronics"⟩, ⟨2, "Mouse", 10, 29, "Accessories"⟩]
      = []
    ∧ searchItem "lap"
        [⟨1, "Laptop", 5, 1299, "Electronics"⟩, ⟨2, "Mouse", 10, 29, "Accessories"⟩]
      = [⟨1, "Laptop", 5, 1299, "Electronics"⟩]
    ∧ searchItem "ACCESSORIES"
        [⟨1, "Laptop", 5, 1299, "Electronics"⟩, ⟨2, "Mouse", 10, 29, "Accessories"⟩]
      = [⟨2, "Mouse", 10, 29, "Accessories"⟩]
    ∧ searchItem "1"
        [⟨1, "Laptop", 5, 1299, "Electronics"⟩, ⟨2, "Mouse", 10, 29, "Accessories"⟩]
      = [⟨1, "Laptop", 5, 1299, "Electronics"⟩] :=
  ⟨(c8_search_correct "lap"
      [⟨1, "Laptop", 5, 1299, "Electronics"⟩, ⟨2, "Mouse", 10, 29, "Accessories"⟩]
      (by decide)).1 (by decide),
   (c8_search_correct ""
      [⟨1, "Laptop", 5, 1299, "Electronics"⟩, ⟨2, "Mouse", 10, 29, "Accessories"⟩]
      (by decide)).2.1,
   by decide, by decide, by decide⟩

/-- C10: in the generic variant, `addItem` with non-negative quantity and
price and an existing name does not create a record and does not consume
an id: the quantity is added to the first item with that name, whose id,
price and category (and all other records) are unchanged. -/
theorem c10_add_merges_by_name (inv : Inventory) (name : String) (qty : Int)
    (price : ℚ) (cat : String) (pre post : List Item) (it : Item)
    (hq : 0 ≤ qty) (hp : 0 ≤ price)
    (hitems : inv.items = pre ++ it :: post)
    (hpre : ∀ j ∈ pre, j.name ≠ name) (hit : it.name = name) :
    addItem inv name qty price cat
      = { inv with items := pre ++ { it with quantity := it.quantity + qty } :: post }
    ∧ (addItem inv name qty price cat).nextId = inv.nextId
    ∧ (addItem inv name qty price cat).items.length = inv.items.length := by
  have hcond : ¬ (qty < 0 ∨ price < 0) := by
    push_neg
    exact ⟨hq, hp⟩
  have hmerge : addToFirstByName name qty inv.items
      = some (pre ++ { it with quantity := it.quantity + qty } :: post) := by
    rw [hitems]
    exact addToFirstByName_of_decomp qty hpre hit
  have hmain : addItem inv name qty price cat
      = { inv with items := pre ++ { it with quantity := it.quantity + qty } :: post } := by
    rw [addItem, if_neg hcond, hmerge]
  refine ⟨hmain, ?_, ?_⟩
  · rw [hmain]
  · rw [hmain, hitems]
    simp

/-- C10 witness: adding 5 more "Laptop" units merges into the existing
record — same id, price, category, no id consumed, no new record. -/
theorem c10_add_merges_by_name_witness :
    addItem ⟨[⟨1, "Laptop", 5, 1299, "Electronics"⟩,
              ⟨2, "Mouse", 10, 29, "Accessories"⟩], 3⟩ "Laptop" 5 1299 "Electronics"
      = ⟨[⟨1, "Laptop", 10, 1299, "Electronics"⟩,
          ⟨2, "Mouse", 10, 29, "Accessories"⟩], 3⟩ := by
  have h := (c10_add_merges_by_name
    ⟨[⟨1, "Laptop", 5, 1299, "Electronics"⟩,
      ⟨2, "Mouse", 10, 29, "Accessories"⟩], 3⟩ "Laptop" 5 1299 "Electronics"
    [] [⟨2, "Mouse", 10, 29, "Accessories"⟩] ⟨1, "Laptop", 5, 1299, "Electronics"⟩
    (by decide) (by decide) rfl (by simp) rfl).1
  exact h

end Claims
